import Mathlib

/-!
Verification of the marlin Connect-Four solver core: the bitboard position
representation (`src/include/position.hpp`, `src/src/position.cpp`), the
transposition table (`src/include/transposition.hpp`, `src/src/transposition.cpp`)
and the negamax solver with alpha-beta pruning (`src/src/solver.cpp`).

Machine integers are embedded as `Nat` / `Int`.  All `uint64_t` quantities in
the source stay far below `2 ^ 64` (bitboards use bits 0..48 only, and the key
`position + mask + BOTTOM_MASK` is below `3 * 2 ^ 49`), so plain `Nat`
arithmetic is exact.  All `int` divisions performed by the solver have
non-negative dividends at every reachable call site, where C++ truncation
agrees with Lean's `Int` division.  The `static_cast<int8_t>` at the
transposition-table store is embedded as an explicit wrap (`toInt8`).
-/

namespace Marlin

/-- Board state, from `position.hpp`: `mask_` (all stones), `position_`
(current player's stones), `moves_` (number of moves played). -/
structure Position where
  mask : Nat
  position : Nat
  moves : Nat
  deriving Repr, DecidableEq

/-- `Position::WIDTH`. -/
def WIDTH : Nat := 7

/-- `Position::HEIGHT`. -/
def HEIGHT : Nat := 6

/-- `Position::bottom_mask(col)`: `1ULL << (col * (HEIGHT + 1))`. -/
def bottom_mask (col : Nat) : Nat := 1 <<< (col * (HEIGHT + 1))

/-- `Position::column_mask(col)`: `((1ULL << HEIGHT) - 1) << (col * (HEIGHT + 1))`. -/
def column_mask (col : Nat) : Nat := ((1 <<< HEIGHT) - 1) <<< (col * (HEIGHT + 1))

/-- `Position::top_mask(col)`: `1ULL << ((HEIGHT - 1) + col * (HEIGHT + 1))`. -/
def top_mask (col : Nat) : Nat := 1 <<< ((HEIGHT - 1) + col * (HEIGHT + 1))

/-- `Position::BOTTOM_MASK`, the literal constant from `position.hpp`. -/
def BOTTOM_MASK : Nat :=
  (1 <<< 0) ||| (1 <<< 7) ||| (1 <<< 14) ||| (1 <<< 21) |||
  (1 <<< 28) ||| (1 <<< 35) ||| (1 <<< 42)

/-- The empty board built by `Position::Position()`. -/
def start : Position := ⟨0, 0, 0⟩

/-- `Position::can_play(col)`: `(mask_ & top_mask(col)) == 0`. -/
def Position.can_play (p : Position) (col : Nat) : Bool :=
  p.mask &&& top_mask col == 0

/-- `Position::make_move(col)`: `position_ ^= mask_;`
`mask_ |= mask_ + bottom_mask(col);` `moves_++;` (in this order, so the
perspective switch uses the old mask). -/
def Position.make_move (p : Position) (col : Nat) : Position :=
  { position := p.position ^^^ p.mask
    mask := p.mask ||| (p.mask + bottom_mask col)
    moves := p.moves + 1 }

/-- `alignment(pos)` from `position.cpp`: shift-and-AND detection of
four-in-a-row along the four directions (strides 7, 1, 8, 6). -/
def alignment (pos : Nat) : Bool :=
  let mh := pos &&& (pos >>> 7)
  if mh &&& (mh >>> 14) != 0 then true
  else
    let mv := pos &&& (pos >>> 1)
    if mv &&& (mv >>> 2) != 0 then true
    else
      let md1 := pos &&& (pos >>> 8)
      if md1 &&& (md1 >>> 16) != 0 then true
      else
        let md2 := pos &&& (pos >>> 6)
        md2 &&& (md2 >>> 12) != 0

/-- `Position::is_winning_move(col)`:
`new_piece = (mask_ + bottom_mask(col)) & column_mask(col);`
`return alignment(position_ | new_piece);`. -/
def Position.is_winning_move (p : Position) (col : Nat) : Bool :=
  let new_piece := (p.mask + bottom_mask col) &&& column_mask col
  alignment (p.position ||| new_piece)

/-- Modelled from the spec: `Position::key()` is called by the solver
(`solver.cpp`, line 63) but its definition is missing from `src/`; the spec
(§4.1) and the comment block of `transposition.hpp` both give
`key = currentPlayerStones + occupied + BOTTOM_MASK`. -/
def Position.key (p : Position) : Nat := p.position + p.mask + BOTTOM_MASK

/-- Transposition table (`transposition.hpp`): a fixed-size array of
`(key, value)` entries, all-zero initially; `entries i` is the slot at
index `i` (meaningful for `i < size`). -/
structure TT where
  size : Nat
  entries : Nat → Nat × Int

/-- `TranspositionTable::TranspositionTable(size)`: all entries zeroed. -/
def TT.init (size : Nat) : TT := ⟨size, fun _ => (0, 0)⟩

/-- `TranspositionTable::index(key)`: `key % size_`. -/
def TT.index (t : TT) (key : Nat) : Nat := key % t.size

/-- `TranspositionTable::put(key, value)`: unconditional overwrite of the
slot at `index(key)`. -/
def TT.put (t : TT) (key : Nat) (value : Int) : TT :=
  ⟨t.size, fun i => if i = t.index key then (key, value) else t.entries i⟩

/-- `TranspositionTable::get(key)`: the stored value if the slot's key
matches, else 0. -/
def TT.get (t : TT) (key : Nat) : Int :=
  if (t.entries (t.index key)).1 = key then (t.entries (t.index key)).2 else 0

/-- `TranspositionTable::reset()`: zero every slot. -/
def TT.reset (t : TT) : TT := ⟨t.size, fun _ => (0, 0)⟩

/-- `Solver::COLUMN_ORDER`: `{3, 2, 4, 1, 5, 0, 6}` (center first). -/
def COLUMN_ORDER : List Nat := [3, 2, 4, 1, 5, 0, 6]

/-- The solver's immediate-win scan (`solver.cpp`, lines 43-49): some column
in `COLUMN_ORDER` is playable and winning. -/
def winNow (p : Position) : Bool :=
  COLUMN_ORDER.any fun col => p.can_play col && p.is_winning_move col

/-- The win score `(WIDTH * HEIGHT + 1 - nb_moves()) / 2` returned by the
immediate-win branch. -/
def winScore (p : Position) : Int := ((7 * 6 : Int) + 1 - (p.moves : Int)) / 2

/-- `static_cast<int8_t>`: two's-complement wrap into `[-128, 127]`. -/
def toInt8 (x : Int) : Int := (x + 128) % 256 - 128

/-- Result of one (sub)search: returned score, transposition table and node
counter after the call, plus a ghost log of the raw (pre-cast) values passed
to `TranspositionTable::put` during the call.  The log is instrumentation
only; the first three components are the C++ state. -/
structure SR where
  score : Int
  tt : TT
  nodes : Nat
  log : List Int

/-- Result of the solver's move loop: `cut = some s` when the loop returned
early with a beta cutoff `s`, `cut = none` when it ran to completion leaving
the final `alpha`. -/
structure LR where
  cut : Option Int
  alpha : Int
  tt : TT
  nodes : Nat
  log : List Int

/-- The move loop of `Solver::negamax` (lines 90-114) over the remaining
columns: skip unplayable columns; recurse with negated, swapped bounds; on
`score >= beta` return the score (beta cutoff); otherwise raise `alpha`.
`f` is the recursive search at the remaining fuel. -/
def nmLoop (f : Position → Int → Int → TT → Nat → SR) :
    List Nat → Position → Int → Int → TT → Nat → LR
  | [], _, alpha, _, tt, n => ⟨none, alpha, tt, n, []⟩
  | col :: rest, p, alpha, beta, tt, n =>
    if p.can_play col then
      let r := f (p.make_move col) (-beta) (-alpha) tt n
      let score := -r.score
      if beta ≤ score then ⟨some score, alpha, r.tt, r.nodes, r.log⟩
      else
        let r2 := nmLoop f rest p (max alpha score) beta r.tt r.nodes
        ⟨r2.cut, r2.alpha, r2.tt, r2.nodes, r.log ++ r2.log⟩
    else nmLoop f rest p alpha beta tt n

/-- `Solver::negamax(pos, alpha, beta)` (`solver.cpp`, lines 37-124), with an
explicit fuel (the C++ recursion terminates because `moves_` grows; every
entry point supplies fuel `≥ 43 - moves`, so the fuel-0 branch is never
taken on states satisfying the board invariant).  Steps, in source order:
increment the node counter;  immediate-win check;  draw check
(`moves >= 41`);  transposition lookup, treating a nonzero cached value as
an upper bound that may tighten `beta`;  clamp `beta` to
`(WIDTH*HEIGHT - 1 - moves)/2`;  the move loop;  on completion store
`int8_t(alpha - WIDTH*HEIGHT/2 + 1)` and return `alpha`. -/
def negamax : Nat → Position → Int → Int → TT → Nat → SR
  | 0, _, alpha, _, tt, n => ⟨alpha, tt, n, []⟩
  | fuel + 1, p, alpha, beta, tt, n =>
    let n := n + 1
    if winNow p then ⟨winScore p, tt, n, []⟩
    else if 7 * 6 - 1 ≤ p.moves then ⟨0, tt, n, []⟩
    else
      let key := p.key
      let cached := tt.get key
      let mfc := cached + 7 * 6 / 2 - 1
      if cached ≠ 0 ∧ mfc < beta ∧ mfc ≤ alpha then ⟨mfc, tt, n, []⟩
      else
        let beta1 := if cached ≠ 0 ∧ mfc < beta then mfc else beta
        let maxPossible : Int := ((7 * 6 : Int) - 1 - (p.moves : Int)) / 2
        if maxPossible < beta1 ∧ maxPossible ≤ alpha then ⟨maxPossible, tt, n, []⟩
        else
          let beta2 := if maxPossible < beta1 then maxPossible else beta1
          let L := nmLoop (negamax fuel) COLUMN_ORDER p alpha beta2 tt n
          match L.cut with
          | some s => ⟨s, L.tt, L.nodes, L.log⟩
          | none =>
            let raw := L.alpha - 7 * 6 / 2 + 1
            ⟨L.alpha, L.tt.put key (toInt8 raw), L.nodes, L.log ++ [raw]⟩

/-- `Solver::solve(pos)` (`solver.cpp`, lines 17-27): reset the node counter,
set `alpha = -(WIDTH*HEIGHT)/2`, `beta = (WIDTH*HEIGHT+1)/2`, run `negamax`.
Fuel 43 covers every recursion depth from any state with `moves ≤ 42`. -/
def solve (p : Position) (tt : TT) : SR :=
  negamax 43 p (-(7 * 6 : Int) / 2) ((7 * 6 + 1 : Int) / 2) tt 0

/-- Modelled from the spec (§8, "Minimax equivalence"): the full-width,
unpruned negamax evaluation of a position — same terminal rules as the
solver (immediate-win score, draw 0 at `moves ≥ 41`), but every legal move
is explored and the maximum of the negated child scores is returned.  The
fold's start value `-1000` is below every score, and a non-terminal
position always has a legal move, so the fold is the exact maximum. -/
def negamaxRef : Nat → Position → Int
  | 0, _ => 0
  | fuel + 1, p =>
    if winNow p then winScore p
    else if 7 * 6 - 1 ≤ p.moves then 0
    else
      ((COLUMN_ORDER.filter fun c => p.can_play c).map
        fun c => -negamaxRef fuel (p.make_move c)).foldr max (-1000)

/-- The full-width negamax value of a position; fuel 43 suffices for any
state with `moves ≤ 42` (see `negamaxRef_congr`). -/
def refScore (p : Position) : Int := negamaxRef 43 p

/-- Number of set bits (the spec's `popcount`). -/
def popcount (n : Nat) : Nat :=
  if h : n = 0 then 0 else n % 2 + popcount (n / 2)
termination_by n
decreasing_by exact Nat.div_lt_self (Nat.pos_of_ne_zero h) (by omega)

/-- Value of a little-endian list of base-128 digits (one digit per
7-bit column lane of a bitboard). -/
def encode : List Nat → Nat
  | [] => 0
  | d :: t => d + 128 * encode t

/-- Mask digit of one column holding `h` stones: `h` low bits set. -/
def mDig (hq : Nat × Nat) : Nat := 2 ^ hq.1 - 1

/-- The occupancy bitboard described by per-column data
`(height, current player's stones in the column)`. -/
def maskOf (cols : List (Nat × Nat)) : Nat := encode (cols.map mDig)

/-- The current-player bitboard described by per-column data. -/
def posOf (cols : List (Nat × Nat)) : Nat := encode (cols.map Prod.snd)

/-- Total number of stones of per-column data. -/
def movesOf (cols : List (Nat × Nat)) : Nat := (cols.map Prod.fst).sum

/-- Per-column well-formedness: height at most 6 and the current player's
stones within the column's occupied low bits. -/
def ColsOK (cols : List (Nat × Nat)) : Prop :=
  ∀ hq ∈ cols, hq.1 ≤ 6 ∧ hq.2 < 2 ^ hq.1

/-- The fields of `p` are described by the per-column data `cols`. -/
def InvWith (p : Position) (cols : List (Nat × Nat)) : Prop :=
  cols.length = 7 ∧ ColsOK cols ∧
    p.mask = maskOf cols ∧ p.position = posOf cols ∧ p.moves = movesOf cols

/-- Structural board invariant: the three fields are described by some
well-formed 7-column data.  Every position reachable by legal moves
satisfies it (`Reachable.inv`). -/
def Inv (p : Position) : Prop := ∃ cols, InvWith p cols

/-- Column update under a perspective switch: the heights stay, the
current player's stones are complemented within the occupied bits. -/
def flipD (hq : Nat × Nat) : Nat × Nat := (hq.1, 2 ^ hq.1 - 1 - hq.2)

/-- Key digit of one column: current player's stones plus a marker bit
just above them (`q + 2^h < 128`). -/
def kDig (hq : Nat × Nat) : Nat := hq.2 + 2 ^ hq.1

/-- Positions reachable from the empty board by legal column drops
(each preceded by a true `can_play`). -/
inductive Reachable : Position → Prop
  | init : Reachable start
  | step {p : Position} {c : Nat} :
      Reachable p → c < 7 → p.can_play c = true → Reachable (p.make_move c)

/-- Decidable legality of a move sequence from a given position: every move
names a real column and its column is playable when it is made. -/
def legalSeq : Position → List Nat → Bool
  | _, [] => true
  | p, c :: rest => decide (c < 7) && p.can_play c && legalSeq (p.make_move c) rest

/-- Ghost two-player semantics for the perspective invariant: the state is
`(stones of the player to move, stones of the waiting player)`; a move drops
on the shared occupancy and hands the turn over. -/
def play2 : Nat × Nat → List Nat → Nat × Nat
  | s, [] => s
  | (cur, opp), c :: rest =>
      play2 (opp, cur ||| (((cur ||| opp) + bottom_mask c) &&& column_mask c)) rest

/-- All digits of a list are below the base 128 (one 7-bit column lane each). -/
def Digits (l : List Nat) : Prop := ∀ d ∈ l, d < 128

/-- Soundness invariant of the transposition table: empty slots carry value
0; every filled slot carries a value in `[-41, -1]` that is (after the +20
decode offset) an upper bound on the full-width negamax score of any
invariant-satisfying position with that key. -/
def TTok (t : TT) : Prop :=
  ∀ i : Nat,
    ((t.entries i).1 = 0 → (t.entries i).2 = 0) ∧
    ((t.entries i).1 ≠ 0 →
      -41 ≤ (t.entries i).2 ∧ (t.entries i).2 ≤ -1 ∧
      ∀ p : Position, Inv p → p.key = (t.entries i).1 →
        refScore p ≤ (t.entries i).2 + 20)

/-- Induction statement for the pruned search at a given fuel: with a sound
table and a window `-21 ≤ a < b ≤ 21`, the search preserves table
soundness, logs only in-range store values, and its score relates to the
full-width negamax score in the fail-soft way (an upper bound when it
fails low, a lower bound when it fails high, exact strictly inside the
window). -/
def NSpec (fuel : Nat) : Prop :=
  ∀ (q : Position) (a b : Int) (t : TT) (m : Nat), Inv q →
    43 ≤ q.moves + fuel → -21 ≤ a → a < b → b ≤ 21 → 0 < t.size → TTok t →
    TTok (negamax fuel q a b t m).tt ∧
    (negamax fuel q a b t m).tt.size = t.size ∧
    (∀ v ∈ (negamax fuel q a b t m).log, -41 ≤ v ∧ v ≤ -1) ∧
    ((negamax fuel q a b t m).score ≤ a →
      refScore q ≤ (negamax fuel q a b t m).score) ∧
    (b ≤ (negamax fuel q a b t m).score →
      (negamax fuel q a b t m).score ≤ refScore q) ∧
    (a < (negamax fuel q a b t m).score → (negamax fuel q a b t m).score < b →
      (negamax fuel q a b t m).score = refScore q)

/-- A concrete legal 42-move filling of the board leaving the final player
to move without any four-in-a-row. -/
def drawSeq : List Nat :=
  [5, 3, 2, 3, 1, 5, 3, 1, 0, 1, 4, 1, 2, 5, 0, 1, 6, 6, 2, 0, 6,
   0, 4, 2, 3, 0, 3, 4, 2, 1, 2, 5, 5, 0, 5, 4, 6, 3, 6, 4, 4, 6]

/-- A concrete legal 40-move sequence reaching a position where the mover
has no immediate win but every move hands the opponent one: the search's
move loop then completes without a cutoff and stores into the table. -/
def c8seq : List Nat :=
  [4, 5, 6, 4, 4, 4, 3, 4, 1, 2, 3, 2, 5, 3, 0, 6, 1, 1, 4, 6,
   0, 2, 2, 3, 0, 5, 6, 0, 3, 1, 1, 0, 0, 5, 3, 6, 1, 2, 6, 2]

section BitInfra

theorem testBit_add_pow {k a : Nat} (x i : Nat) (ha : a < 2 ^ k) :
    (a + 2 ^ k * x).testBit i = if i < k then a.testBit i else x.testBit (i - k) := by
  induction k generalizing a x i with
  | zero =>
    interval_cases a
    simp
  | succ k ih =>
    have hsplit : a + 2 ^ (k + 1) * x = (a + 2 * (2 ^ k * x)) := by ring
    rw [hsplit]
    cases i with
    | zero =>
      rw [Nat.testBit_zero, Nat.testBit_zero]
      have : (a + 2 * (2 ^ k * x)) % 2 = a % 2 := by omega
      simp [this]
    | succ i =>
      rw [Nat.testBit_succ, Nat.testBit_succ]
      have hdiv : (a + 2 * (2 ^ k * x)) / 2 = a / 2 + 2 ^ k * x := by
        omega
      rw [hdiv, ih x i (by omega)]
      rcases Nat.lt_or_ge i k with h | h
      · simp [h, Nat.lt_succ_of_lt h, Nat.testBit_succ]
      · have h1 : ¬ i < k := by omega
        have h2 : ¬ i + 1 < k + 1 := by omega
        simp [h1, h2]

theorem land_digit {k a b : Nat} (x y : Nat) (ha : a < 2 ^ k) (hb : b < 2 ^ k) :
    (a + 2 ^ k * x) &&& (b + 2 ^ k * y) = (a &&& b) + 2 ^ k * (x &&& y) := by
  apply Nat.eq_of_testBit_eq
  intro i
  rw [Nat.testBit_land, testBit_add_pow x i ha, testBit_add_pow y i hb,
    testBit_add_pow (x &&& y) i (Nat.and_lt_two_pow a hb)]
  rcases Nat.lt_or_ge i k with h | h
  · simp [h, Nat.testBit_land]
  · have h1 : ¬ i < k := by omega
    simp [h1, Nat.testBit_land]

theorem lor_digit {k a b : Nat} (x y : Nat) (ha : a < 2 ^ k) (hb : b < 2 ^ k) :
    (a + 2 ^ k * x) ||| (b + 2 ^ k * y) = (a ||| b) + 2 ^ k * (x ||| y) := by
  apply Nat.eq_of_testBit_eq
  intro i
  rw [Nat.testBit_lor, testBit_add_pow x i ha, testBit_add_pow y i hb,
    testBit_add_pow (x ||| y) i (Nat.or_lt_two_pow ha hb)]
  rcases Nat.lt_or_ge i k with h | h
  · simp [h, Nat.testBit_lor]
  · have h1 : ¬ i < k := by omega
    simp [h1, Nat.testBit_lor]

theorem xor_digit {k a b : Nat} (x y : Nat) (ha : a < 2 ^ k) (hb : b < 2 ^ k) :
    (a + 2 ^ k * x) ^^^ (b + 2 ^ k * y) = (a ^^^ b) + 2 ^ k * (x ^^^ y) := by
  apply Nat.eq_of_testBit_eq
  intro i
  rw [Nat.testBit_xor, testBit_add_pow x i ha, testBit_add_pow y i hb,
    testBit_add_pow (x ^^^ y) i (Nat.xor_lt_two_pow ha hb)]
  rcases Nat.lt_or_ge i k with h | h
  · simp [h, Nat.testBit_xor]
  · have h1 : ¬ i < k := by omega
    simp [h1, Nat.testBit_xor]

/-- XOR with the all-ones pattern of width `h` is complementation:
`q ^^^ (2^h - 1) = 2^h - 1 - q` for `q < 2^h`. -/
theorem xor_ones {h q : Nat} (hq : q < 2 ^ h) : q ^^^ (2 ^ h - 1) = 2 ^ h - 1 - q := by
  induction h generalizing q with
  | zero =>
    interval_cases q
    rfl
  | succ h ih =>
    have h2 : 0 < 2 ^ h := Nat.pos_pow_of_pos h (by omega)
    have hpow : 2 ^ (h + 1) = 2 * 2 ^ h := by ring
    have key := @xor_digit 1 (q % 2) 1 (q / 2) (2 ^ h - 1)
      (by simpa using Nat.mod_lt q (by norm_num)) (by norm_num)
    have e1 : q % 2 + 2 ^ 1 * (q / 2) = q := by simp only [pow_one]; omega
    have e2 : 1 + 2 ^ 1 * (2 ^ h - 1) = 2 ^ (h + 1) - 1 := by
      simp only [pow_one]; omega
    rw [e1, e2] at key
    rw [key, ih (by omega)]
    have hx0 : (0 : Nat) ^^^ 1 = 1 := rfl
    have hx1 : (1 : Nat) ^^^ 1 = 0 := rfl
    rcases Nat.mod_two_eq_zero_or_one q with hm | hm <;> rw [hm] <;>
      simp only [hx0, hx1, pow_one] <;> omega

theorem encode_nil : encode [] = 0 := rfl

theorem encode_cons (d : Nat) (t : List Nat) : encode (d :: t) = d + 128 * encode t := rfl

theorem encode_lt {l : List Nat} (hl : Digits l) : encode l < 128 ^ l.length := by
  induction l with
  | nil => simp [encode]
  | cons d t ih =>
    have hd : d < 128 := hl d (by simp)
    have ht : encode t < 128 ^ t.length := ih (fun x hx => hl x (by simp [hx]))
    rw [encode_cons]
    have : 128 ^ (d :: t).length = 128 * 128 ^ t.length := by
      simp [List.length_cons]; ring
    omega

theorem encode_testBit {l : List Nat} (hl : Digits l) (c r : Nat)
    (hc : c < l.length) (hr : r < 7) :
    (encode l).testBit (7 * c + r) = (l.get ⟨c, hc⟩).testBit r := by
  induction l generalizing c with
  | nil => simp at hc
  | cons d t ih =>
    have hd : d < 128 := hl d (by simp)
    have h128 : (128 : Nat) = 2 ^ 7 := by norm_num
    rw [encode_cons, h128]
    cases c with
    | zero =>
      rw [testBit_add_pow (encode t) (7 * 0 + r) hd]
      simp [hr]
    | succ c =>
      rw [testBit_add_pow (encode t) (7 * (c + 1) + r) hd]
      have h1 : ¬ 7 * (c + 1) + r < 7 := by omega
      have h2 : 7 * (c + 1) + r - 7 = 7 * c + r := by omega
      rw [if_neg h1, h2, ih (fun x hx => hl x (by simp [hx])) c (by simpa using hc)]
      rfl

theorem land_encode {l m : List Nat} (hl : Digits l) (hm : Digits m)
    (hlen : l.length = m.length) :
    encode l &&& encode m = encode (List.zipWith (· &&& ·) l m) := by
  induction l generalizing m with
  | nil =>
    cases m with
    | nil => rfl
    | cons e u => simp at hlen
  | cons d t ih =>
    cases m with
    | nil => simp at hlen
    | cons e u =>
      have hd : d < 128 := hl d (by simp)
      have he : e < 128 := hm e (by simp)
      have h128 : (128 : Nat) = 2 ^ 7 := by norm_num
      rw [List.zipWith_cons_cons, encode_cons, encode_cons, encode_cons, h128,
        land_digit _ _ (by omega) (by omega),
        ih (fun x hx => hl x (by simp [hx])) (fun x hx => hm x (by simp [hx]))
          (by simpa using hlen)]

theorem lor_encode {l m : List Nat} (hl : Digits l) (hm : Digits m)
    (hlen : l.length = m.length) :
    encode l ||| encode m = encode (List.zipWith (· ||| ·) l m) := by
  induction l generalizing m with
  | nil =>
    cases m with
    | nil => rfl
    | cons e u => simp at hlen
  | cons d t ih =>
    cases m with
    | nil => simp at hlen
    | cons e u =>
      have hd : d < 128 := hl d (by simp)
      have he : e < 128 := hm e (by simp)
      have h128 : (128 : Nat) = 2 ^ 7 := by norm_num
      rw [List.zipWith_cons_cons, encode_cons, encode_cons, encode_cons, h128,
        lor_digit _ _ (by omega) (by omega),
        ih (fun x hx => hl x (by simp [hx])) (fun x hx => hm x (by simp [hx]))
          (by simpa using hlen)]

theorem xor_encode {l m : List Nat} (hl : Digits l) (hm : Digits m)
    (hlen : l.length = m.length) :
    encode l ^^^ encode m = encode (List.zipWith (· ^^^ ·) l m) := by
  induction l generalizing m with
  | nil =>
    cases m with
    | nil => rfl
    | cons e u => simp at hlen
  | cons d t ih =>
    cases m with
    | nil => simp at hlen
    | cons e u =>
      have hd : d < 128 := hl d (by simp)
      have he : e < 128 := hm e (by simp)
      have h128 : (128 : Nat) = 2 ^ 7 := by norm_num
      rw [List.zipWith_cons_cons, encode_cons, encode_cons, encode_cons, h128,
        xor_digit _ _ (by omega) (by omega),
        ih (fun x hx => hl x (by simp [hx])) (fun x hx => hm x (by simp [hx]))
          (by simpa using hlen)]

theorem add_encode {l m : List Nat} (hlen : l.length = m.length) :
    encode l + encode m = encode (List.zipWith (· + ·) l m) := by
  induction l generalizing m with
  | nil =>
    cases m with
    | nil => rfl
    | cons e u => simp at hlen
  | cons d t ih =>
    cases m with
    | nil => simp at hlen
    | cons e u =>
      rw [List.zipWith_cons_cons, encode_cons, encode_cons, encode_cons,
        ← ih (by simpa using hlen)]
      ring

theorem encode_inj {l m : List Nat} (hl : Digits l) (hm : Digits m)
    (hlen : l.length = m.length) (h : encode l = encode m) : l = m := by
  induction l generalizing m with
  | nil => cases m with
    | nil => rfl
    | cons e u => simp at hlen
  | cons d t ih =>
    cases m with
    | nil => simp at hlen
    | cons e u =>
      have hd : d < 128 := hl d (by simp)
      have he : e < 128 := hm e (by simp)
      rw [encode_cons, encode_cons] at h
      have hde : d = e ∧ encode t = encode u := by omega
      have := ih (fun x hx => hl x (by simp [hx])) (fun x hx => hm x (by simp [hx]))
        (by simpa using hlen) hde.2
      rw [hde.1, this]

theorem encode_set {l : List Nat} (c w : Nat) (hc : c < l.length) :
    encode (l.set c w) + l.get ⟨c, hc⟩ * 128 ^ c = encode l + w * 128 ^ c := by
  induction l generalizing c with
  | nil => simp at hc
  | cons d t ih =>
    cases c with
    | zero => simp [encode_cons]; ring
    | succ c =>
      have hc' : c < t.length := by simpa using hc
      have ih' := congrArg (fun z => 128 * z) (ih c hc')
      simp only [Nat.mul_add] at ih'
      have e1 : ∀ x : Nat, 128 * (x * 128 ^ c) = x * 128 ^ (c + 1) := by
        intro x; ring
      rw [e1, e1] at ih'
      have hget : (d :: t).get ⟨c + 1, hc⟩ = t.get ⟨c, hc'⟩ := rfl
      rw [List.set_cons_succ, encode_cons, encode_cons, hget]
      omega

theorem land_single {l : List Nat} (hl : Digits l) {v : Nat} (c : Nat)
    (hc : c < l.length) (hv : v < 128) :
    encode l &&& (v * 128 ^ c) = ((l.get ⟨c, hc⟩) &&& v) * 128 ^ c := by
  induction l generalizing c with
  | nil => simp at hc
  | cons d t ih =>
    have hd : d < 128 := hl d (by simp)
    cases c with
    | zero =>
      have key := @land_digit 7 d v (encode t) 0 (by omega) (by omega)
      simp only [Nat.mul_zero, Nat.add_zero, Nat.and_zero] at key
      have h7 : d + 2 ^ 7 * encode t = encode (d :: t) := by
        rw [encode_cons]; norm_num
      rw [h7] at key
      simpa using key
    | succ c =>
      have hc' : c < t.length := by simpa using hc
      have key := @land_digit 7 d 0 (encode t) (v * 128 ^ c) (by omega) (by omega)
      simp only [Nat.and_zero, Nat.zero_add] at key
      have h7 : d + 2 ^ 7 * encode t = encode (d :: t) := by
        rw [encode_cons]; norm_num
      have h8 : 2 ^ 7 * (v * 128 ^ c) = v * 128 ^ (c + 1) := by norm_num; ring
      rw [h7, h8, ih (fun x hx => hl x (by simp [hx])) c hc'] at key
      rw [key, List.get_cons_succ]
      have : (128 : Nat) ^ (c + 1) = 128 ^ c * 128 := by ring
      rw [this]
      norm_num
      ring

theorem zipWith_map_same {α β : Type} (f : β → β → β) (g h : α → β) (l : List α) :
    List.zipWith f (l.map g) (l.map h) = l.map fun x => f (g x) (h x) := by
  induction l with
  | nil => rfl
  | cons d t ih => simp [ih]

theorem zipWith_self {f : Nat → Nat → Nat} (hf : ∀ d, f d d = d) (l : List Nat) :
    List.zipWith f l l = l := by
  induction l with
  | nil => rfl
  | cons d t ih => simp [hf, ih]

theorem zipWith_self_set {f : Nat → Nat → Nat} (hf : ∀ d, f d d = d)
    (l : List Nat) (c w : Nat) (hc : c < l.length) :
    List.zipWith f l (l.set c w) = l.set c (f (l.get ⟨c, hc⟩) w) := by
  induction l generalizing c with
  | nil => simp at hc
  | cons d t ih =>
    cases c with
    | zero =>
      simp only [List.set_cons_zero, List.zipWith_cons_cons]
      rw [zipWith_self hf t]
      rfl
    | succ c =>
      have hc' : c < t.length := by simpa using hc
      have hget : (d :: t).get ⟨c + 1, hc⟩ = t.get ⟨c, hc'⟩ := rfl
      rw [List.set_cons_succ, List.zipWith_cons_cons, hf, ih c hc', hget,
        List.set_cons_succ]

theorem popcount_zero : popcount 0 = 0 := by
  rw [popcount]
  simp

theorem popcount_eq (n : Nat) : popcount n = n % 2 + popcount (n / 2) := by
  rw [popcount]
  split
  · subst n; simp [popcount_zero]
  · rfl

theorem popcount_add_pow {k a : Nat} (x : Nat) (ha : a < 2 ^ k) :
    popcount (a + 2 ^ k * x) = popcount a + popcount x := by
  induction k generalizing a with
  | zero =>
    interval_cases a
    simp [popcount_zero]
  | succ k ih =>
    have h1 : a + 2 ^ (k + 1) * x = a + 2 * (2 ^ k * x) := by ring
    rw [h1, popcount_eq, popcount_eq a]
    have h2 : (a + 2 * (2 ^ k * x)) % 2 = a % 2 := by omega
    have h3 : (a + 2 * (2 ^ k * x)) / 2 = a / 2 + 2 ^ k * x := by omega
    rw [h2, h3, ih (by omega)]
    omega

theorem popcount_ones (h : Nat) : popcount (2 ^ h - 1) = h := by
  induction h with
  | zero => simpa using popcount_zero
  | succ h ih =>
    have h2 : 0 < 2 ^ h := Nat.pos_pow_of_pos h (by omega)
    have h1 : 2 ^ (h + 1) - 1 = 1 + 2 * (2 ^ h - 1) := by
      have : 2 ^ (h + 1) = 2 * 2 ^ h := by ring
      omega
    rw [h1, popcount_eq]
    have : (1 + 2 * (2 ^ h - 1)) % 2 = 1 := by omega
    rw [this]
    have : (1 + 2 * (2 ^ h - 1)) / 2 = 2 ^ h - 1 := by omega
    rw [this, ih]
    omega

theorem popcount_encode {l : List Nat} (hl : Digits l) :
    popcount (encode l) = (l.map popcount).sum := by
  induction l with
  | nil => simp [encode, popcount]
  | cons d t ih =>
    have hd : d < 128 := hl d (by simp)
    have h128 : (128 : Nat) = 2 ^ 7 := by norm_num
    rw [encode_cons, h128, popcount_add_pow _ (by omega),
      ih (fun x hx => hl x (by simp [hx]))]
    simp

end BitInfra

section PositionInfra

theorem digitsM {cols : List (Nat × Nat)} (hok : ColsOK cols) :
    Digits (cols.map mDig) := by
  intro d hd
  rcases List.mem_map.mp hd with ⟨hq, hmem, rfl⟩
  have h6 := (hok hq hmem).1
  have : (2 : Nat) ^ hq.1 ≤ 2 ^ 6 := Nat.pow_le_pow_right (by omega) h6
  unfold mDig
  omega

theorem digitsP {cols : List (Nat × Nat)} (hok : ColsOK cols) :
    Digits (cols.map Prod.snd) := by
  intro d hd
  rcases List.mem_map.mp hd with ⟨hq, hmem, rfl⟩
  have h6 := (hok hq hmem).1
  have hq2 := (hok hq hmem).2
  have : (2 : Nat) ^ hq.1 ≤ 2 ^ 6 := Nat.pow_le_pow_right (by omega) h6
  omega

theorem digitsK {cols : List (Nat × Nat)} (hok : ColsOK cols) :
    Digits (cols.map kDig) := by
  intro d hd
  rcases List.mem_map.mp hd with ⟨hq, hmem, rfl⟩
  have h6 := (hok hq hmem).1
  have hq2 := (hok hq hmem).2
  have : (2 : Nat) ^ hq.1 ≤ 2 ^ 6 := Nat.pow_le_pow_right (by omega) h6
  unfold kDig
  omega

theorem pow128_eq (c : Nat) : (128 : Nat) ^ c = 2 ^ (7 * c) := by
  have : (128 : Nat) = 2 ^ 7 := by norm_num
  rw [this, ← Nat.pow_mul]

theorem bottom_mask_eq (c : Nat) : bottom_mask c = 128 ^ c := by
  unfold bottom_mask HEIGHT
  rw [Nat.shiftLeft_eq, pow128_eq, Nat.one_mul, Nat.mul_comm]

theorem top_mask_eq (c : Nat) : top_mask c = 32 * 128 ^ c := by
  unfold top_mask HEIGHT
  rw [Nat.shiftLeft_eq, pow128_eq, Nat.one_mul, Nat.mul_comm c 7, Nat.pow_add]

theorem column_mask_eq (c : Nat) : column_mask c = 63 * 128 ^ c := by
  unfold column_mask HEIGHT
  rw [pow128_eq, Nat.shiftLeft_eq, Nat.shiftLeft_eq, Nat.one_mul, Nat.mul_comm c 7]

theorem set_get_self {α : Type} (l : List α) (c : Nat) (hc : c < l.length) :
    l.set c (l.get ⟨c, hc⟩) = l := by
  induction l generalizing c with
  | nil => simp at hc
  | cons d t ih =>
    cases c with
    | zero => rfl
    | succ c =>
      have hc' : c < t.length := by simpa using hc
      have : (d :: t).get ⟨c + 1, hc⟩ = t.get ⟨c, hc'⟩ := rfl
      rw [this, List.set_cons_succ, ih c hc']

theorem sum_set (l : List Nat) (c w : Nat) (hc : c < l.length) :
    (l.set c w).sum + l.get ⟨c, hc⟩ = l.sum + w := by
  induction l generalizing c with
  | nil => simp at hc
  | cons d t ih =>
    cases c with
    | zero => simp [List.set_cons_zero]; omega
    | succ c =>
      have hc' : c < t.length := by simpa using hc
      have hget : (d :: t).get ⟨c + 1, hc⟩ = t.get ⟨c, hc'⟩ := rfl
      rw [hget, List.set_cons_succ, List.sum_cons, List.sum_cons]
      have := ih c hc'
      omega

theorem ones_land_pow32 (h : Nat) :
    (2 ^ h - 1) &&& 32 = if 5 < h then 32 else 0 := by
  have h32 : (32 : Nat) = 2 ^ 5 := by norm_num
  rw [h32, Nat.and_two_pow, Nat.testBit_two_pow_sub_one]
  by_cases h5 : 5 < h <;> simp [h5]

/-- `can_play` under the invariant: the column holds at most 5 stones. -/
theorem can_play_iff {p : Position} {cols : List (Nat × Nat)} {c : Nat}
    (hI : InvWith p cols) (hcl : c < cols.length) :
    p.can_play c = true ↔ (cols.get ⟨c, hcl⟩).1 ≤ 5 := by
  obtain ⟨h7, hok, hm, hp, hv⟩ := hI
  have hmap : c < (cols.map mDig).length := by simpa using hcl
  have hsingle := land_single (digitsM hok) c hmap (by norm_num : (32 : Nat) < 128)
  have hget : (cols.map mDig).get ⟨c, hmap⟩ = mDig (cols.get ⟨c, hcl⟩) :=
    List.get_map ..
  rw [hget] at hsingle
  unfold Position.can_play
  rw [hm, top_mask_eq, maskOf, hsingle]
  unfold mDig
  rw [ones_land_pow32]
  have hpos : 0 < (128 : Nat) ^ c := Nat.pos_pow_of_pos c (by norm_num)
  by_cases h5 : 5 < (cols.get ⟨c, hcl⟩).1 <;> simp [h5]

/-- Guard bits under the invariant: bit 6 of every column lane is clear. -/
theorem guard_bit_false {p : Position} {cols : List (Nat × Nat)} {c : Nat}
    (hI : InvWith p cols) (hc : c < 7) :
    p.mask.testBit (7 * c + 6) = false := by
  obtain ⟨h7, hok, hm, hp, hv⟩ := hI
  have hcl : c < cols.length := by omega
  have hmap : c < (cols.map mDig).length := by simpa using hcl
  rw [hm, maskOf, encode_testBit (digitsM hok) c 6 hmap (by omega)]
  have hget : (cols.map mDig).get ⟨c, hmap⟩ = mDig (cols.get ⟨c, hcl⟩) :=
    List.get_map ..
  rw [hget]
  unfold mDig
  rw [Nat.testBit_two_pow_sub_one]
  have hle := (hok _ (List.get_mem cols c hcl)).1
  simp only [decide_eq_false_iff_not]
  omega

/-- Subset invariant: the current player's stones lie inside the mask. -/
theorem position_land_mask {p : Position} {cols : List (Nat × Nat)}
    (hI : InvWith p cols) : p.position &&& p.mask = p.position := by
  obtain ⟨h7, hok, hm, hp, hv⟩ := hI
  rw [hm, hp, maskOf, posOf,
    land_encode (digitsP hok) (digitsM hok) (by simp),
    zipWith_map_same]
  congr 1
  apply List.map_congr_left
  intro a ha
  have hq := (hok a ha).2
  unfold mDig
  rw [Nat.and_pow_two_sub_one_eq_mod, Nat.mod_eq_of_lt hq]

/-- Ply/occupancy consistency: `popcount mask = moves`. -/
theorem popcount_mask {p : Position} {cols : List (Nat × Nat)}
    (hI : InvWith p cols) : popcount p.mask = p.moves := by
  obtain ⟨h7, hok, hm, hp, hv⟩ := hI
  rw [hm, hv, maskOf, movesOf, popcount_encode (digitsM hok), List.map_map]
  congr 1
  apply List.map_congr_left
  intro a ha
  simp [mDig, popcount_ones]

theorem moves_le_42 {p : Position} (hI : Inv p) : p.moves ≤ 42 := by
  obtain ⟨cols, h7, hok, hm, hp, hv⟩ := hI
  rw [hv, movesOf]
  have := List.sum_le_card_nsmul (cols.map Prod.fst) 6 ?_
  · simpa [h7] using this
  · intro x hx
    rcases List.mem_map.mp hx with ⟨hq, hmem, rfl⟩
    exact (hok hq hmem).1

theorem digits_set {l : List Nat} (hl : Digits l) {w : Nat} (hw : w < 128)
    (c : Nat) : Digits (l.set c w) := by
  intro d hd
  rcases List.mem_or_eq_of_mem_set hd with h | rfl
  · exact hl d h
  · exact hw

theorem ones_lor_pow (h : Nat) : (2 ^ h - 1) ||| 2 ^ h = 2 ^ (h + 1) - 1 := by
  apply Nat.eq_of_testBit_eq
  intro i
  rw [Nat.testBit_lor, Nat.testBit_two_pow_sub_one, Nat.testBit_two_pow,
    Nat.testBit_two_pow_sub_one]
  by_cases h1 : i < h <;> by_cases h2 : h = i <;> simp [h1, h2] <;> omega

/-- The gravity trick at the whole-mask level: under the invariant, adding
the column's bottom bit to the full mask turns the column's digit
`2^h - 1` into the single bit `2^h` (the carry stops below the guard bit,
even on a full column). -/
theorem grav_encode {p : Position} {cols : List (Nat × Nat)} {c : Nat}
    (hI : InvWith p cols) (hcl : c < cols.length) :
    p.mask + bottom_mask c
      = encode ((cols.map mDig).set c (2 ^ (cols.get ⟨c, hcl⟩).1)) := by
  obtain ⟨h7, hok, hm, hp, hv⟩ := hI
  have hmap : c < (cols.map mDig).length := by simpa using hcl
  have hset := encode_set c (2 ^ (cols.get ⟨c, hcl⟩).1) hmap
  have hget : (cols.map mDig).get ⟨c, hmap⟩ = mDig (cols.get ⟨c, hcl⟩) :=
    List.get_map ..
  rw [hget] at hset
  have h0 : 0 < 2 ^ (cols.get ⟨c, hcl⟩).1 := Nat.pos_pow_of_pos _ (by omega)
  have harith : mDig (cols.get ⟨c, hcl⟩) * 128 ^ c + 128 ^ c
      = 2 ^ (cols.get ⟨c, hcl⟩).1 * 128 ^ c := by
    unfold mDig
    have e : (2 : Nat) ^ (cols.get ⟨c, hcl⟩).1 = (2 ^ (cols.get ⟨c, hcl⟩).1 - 1) + 1 := by
      omega
    calc (2 ^ (cols.get ⟨c, hcl⟩).1 - 1) * 128 ^ c + 128 ^ c
        = ((2 ^ (cols.get ⟨c, hcl⟩).1 - 1) + 1) * 128 ^ c := by ring
      _ = 2 ^ (cols.get ⟨c, hcl⟩).1 * 128 ^ c := by rw [← e]
  rw [hm, maskOf, bottom_mask_eq]
  omega

/-- `make_move` under the invariant: the mask gains exactly the single bit
`2 ^ (7c + h)` (lowest empty cell of column `c`), the stones are
complemented by the old mask, and the resulting state is described by the
flipped, bumped column data. -/
theorem make_move_invWith {p : Position} {cols : List (Nat × Nat)} {c : Nat}
    (hI : InvWith p cols) (hcl : c < cols.length)
    (hp5 : (cols.get ⟨c, hcl⟩).1 ≤ 5) :
    InvWith (p.make_move c)
      ((cols.map flipD).set c
        ((cols.get ⟨c, hcl⟩).1 + 1,
          2 ^ (cols.get ⟨c, hcl⟩).1 - 1 - (cols.get ⟨c, hcl⟩).2)) ∧
    (p.make_move c).mask = p.mask + 2 ^ (7 * c + (cols.get ⟨c, hcl⟩).1) := by
  obtain ⟨h7, hok, hm, hp, hv⟩ := hI
  have hIW : InvWith p cols := ⟨h7, hok, hm, hp, hv⟩
  have hmem := List.get_mem cols c hcl
  have hh6 : (cols.get ⟨c, hcl⟩).1 ≤ 6 := (hok _ hmem).1
  have hq2 : (cols.get ⟨c, hcl⟩).2 < 2 ^ (cols.get ⟨c, hcl⟩).1 := (hok _ hmem).2
  have h0 : 0 < 2 ^ (cols.get ⟨c, hcl⟩).1 := Nat.pos_pow_of_pos _ (by omega)
  have hple : (2 : Nat) ^ (cols.get ⟨c, hcl⟩).1 ≤ 2 ^ 5 :=
    Nat.pow_le_pow_right (by omega) hp5
  have hmap : c < (cols.map mDig).length := by simpa using hcl
  have hMdig : Digits (cols.map mDig) := digitsM hok
  have hSdig : Digits ((cols.map mDig).set c (2 ^ (cols.get ⟨c, hcl⟩).1)) :=
    digits_set hMdig (by omega) c
  have hget : (cols.map mDig).get ⟨c, hmap⟩ = mDig (cols.get ⟨c, hcl⟩) :=
    List.get_map ..
  -- the new mask as an encoding with one digit replaced by 2^(h+1) - 1
  have hmask : (p.make_move c).mask
      = encode ((cols.map mDig).set c (2 ^ ((cols.get ⟨c, hcl⟩).1 + 1) - 1)) := by
    show p.mask ||| (p.mask + bottom_mask c) = _
    rw [grav_encode hIW hcl]
    conv_lhs => rw [hm]
    rw [maskOf, lor_encode hMdig hSdig (by simp),
      zipWith_self_set Nat.or_self (cols.map mDig) c (2 ^ (cols.get ⟨c, hcl⟩).1) hmap, hget]
    unfold mDig
    rw [ones_lor_pow]
  -- the new mask as the old mask plus one bit
  have hmaskadd : (p.make_move c).mask
      = p.mask + 2 ^ (7 * c + (cols.get ⟨c, hcl⟩).1) := by
    rw [hmask]
    have hset := encode_set c (2 ^ ((cols.get ⟨c, hcl⟩).1 + 1) - 1) hmap
    rw [hget] at hset
    have harith : mDig (cols.get ⟨c, hcl⟩) * 128 ^ c
          + 2 ^ (cols.get ⟨c, hcl⟩).1 * 128 ^ c
        = (2 ^ ((cols.get ⟨c, hcl⟩).1 + 1) - 1) * 128 ^ c := by
      unfold mDig
      have e : (2 : Nat) ^ ((cols.get ⟨c, hcl⟩).1 + 1) - 1
          = (2 ^ (cols.get ⟨c, hcl⟩).1 - 1) + 2 ^ (cols.get ⟨c, hcl⟩).1 := by
        have : (2 : Nat) ^ ((cols.get ⟨c, hcl⟩).1 + 1)
            = 2 * 2 ^ (cols.get ⟨c, hcl⟩).1 := by ring
        omega
      rw [e]
      ring
    have hpow : (2 : Nat) ^ (7 * c + (cols.get ⟨c, hcl⟩).1)
        = 2 ^ (cols.get ⟨c, hcl⟩).1 * 128 ^ c := by
      rw [pow128_eq, ← Nat.pow_add]
      ring_nf
    rw [hm, maskOf, hpow]
    omega
  -- the new position bitboard
  have hpos : (p.make_move c).position = posOf (cols.map flipD) := by
    show p.position ^^^ p.mask = _
    rw [hp, hm, posOf, maskOf,
      xor_encode (digitsP hok) (digitsM hok) (by simp),
      zipWith_map_same]
    unfold posOf
    rw [List.map_map]
    congr 1
    apply List.map_congr_left
    intro a ha
    have := (hok a ha).2
    simp only [Function.comp]
    unfold mDig
    rw [xor_ones this]
    rfl
  refine ⟨⟨?_, ?_, ?_, ?_, ?_⟩, hmaskadd⟩
  · simp [h7]
  · -- ColsOK of the new column data
    intro hq hhq
    rcases List.mem_or_eq_of_mem_set hhq with h | rfl
    · rcases List.mem_map.mp h with ⟨y, hy, rfl⟩
      have hy6 := (hok y hy).1
      have hy0 : 0 < 2 ^ y.1 := Nat.pos_pow_of_pos _ (by omega)
      exact ⟨hy6, by unfold flipD; simp; omega⟩
    · constructor
      · show (cols.get ⟨c, hcl⟩).1 + 1 ≤ 6
        omega
      · show 2 ^ (cols.get ⟨c, hcl⟩).1 - 1 - (cols.get ⟨c, hcl⟩).2
            < 2 ^ ((cols.get ⟨c, hcl⟩).1 + 1)
        have : (2 : Nat) ^ ((cols.get ⟨c, hcl⟩).1 + 1)
            = 2 * 2 ^ (cols.get ⟨c, hcl⟩).1 := by ring
        omega
  · -- mask field
    rw [hmask]
    unfold maskOf
    rw [List.map_set, List.map_map]
    have hmm : cols.map (mDig ∘ flipD) = cols.map mDig :=
      List.map_congr_left fun a _ => rfl
    rw [hmm]
    rfl
  · -- position field
    rw [hpos]
    unfold posOf
    rw [List.map_set, List.map_map]
    have hsnd : (cols.map (Prod.snd ∘ flipD))
        = cols.map fun a => 2 ^ a.1 - 1 - a.2 :=
      List.map_congr_left fun a _ => rfl
    have hgetsnd : (cols.map (Prod.snd ∘ flipD)).get ⟨c, by simpa using hcl⟩
        = 2 ^ (cols.get ⟨c, hcl⟩).1 - 1 - (cols.get ⟨c, hcl⟩).2 := by
      rw [List.get_map]
      rfl
    rw [show ((cols.get ⟨c, hcl⟩).1 + 1,
          2 ^ (cols.get ⟨c, hcl⟩).1 - 1 - (cols.get ⟨c, hcl⟩).2).2
        = (cols.map (Prod.snd ∘ flipD)).get ⟨c, by simpa using hcl⟩ from hgetsnd.symm,
      set_get_self, ← List.map_map]
  · -- move counter
    show p.moves + 1 = _
    unfold movesOf
    rw [List.map_set, List.map_map]
    have hfst : cols.map (Prod.fst ∘ flipD) = cols.map Prod.fst :=
      List.map_congr_left fun a _ => rfl
    rw [hfst]
    show p.moves + 1 = ((cols.map Prod.fst).set c ((cols.get ⟨c, hcl⟩).1 + 1)).sum
    have hmap2 : c < (cols.map Prod.fst).length := by simpa using hcl
    have hsum := sum_set (cols.map Prod.fst) c ((cols.get ⟨c, hcl⟩).1 + 1) hmap2
    have hgetf : (cols.map Prod.fst).get ⟨c, hmap2⟩ = (cols.get ⟨c, hcl⟩).1 :=
      List.get_map ..
    rw [hgetf] at hsum
    rw [hv]
    unfold movesOf
    omega

theorem start_invWith : InvWith start (List.replicate 7 (0, 0)) := by
  refine ⟨by simp, ?_, by rfl, by rfl, by rfl⟩
  intro hq hhq
  have := List.eq_of_mem_replicate hhq
  subst this
  exact ⟨by omega, by norm_num⟩

theorem inv_start : Inv start := ⟨_, start_invWith⟩

theorem inv_make_move {p : Position} {c : Nat} (hI : Inv p) (hc : c < 7)
    (hcp : p.can_play c = true) : Inv (p.make_move c) := by
  obtain ⟨cols, hIW⟩ := hI
  have hcl : c < cols.length := by
    have := hIW.1
    omega
  have h5 := (can_play_iff hIW hcl).mp hcp
  exact ⟨_, (make_move_invWith hIW hcl h5).1⟩

theorem Reachable.inv {p : Position} (h : Reachable p) : Inv p := by
  induction h with
  | init => exact inv_start
  | step hr hc hcp ih => exact inv_make_move ih hc hcp

theorem zip_add_ones (l : List Nat) :
    List.zipWith (· + ·) l (List.replicate l.length 1) = l.map (· + 1) := by
  induction l with
  | nil => rfl
  | cons d t ih => simp [List.replicate_succ, ih]

theorem bottom_mask_encode : BOTTOM_MASK = encode (List.replicate 7 1) := by decide

/-- The memoization key under the invariant: one base-128 digit
`q + 2^h` per column. -/
theorem key_encode {p : Position} {cols : List (Nat × Nat)}
    (hI : InvWith p cols) : p.key = encode (cols.map kDig) := by
  obtain ⟨h7, hok, hm, hp, hv⟩ := hI
  unfold Position.key
  rw [hm, hp, bottom_mask_encode, maskOf, posOf,
    add_encode (by simp), zipWith_map_same]
  have hlen7 : (List.map (fun x => x.2 + mDig x) cols).length = 7 := by simp [h7]
  rw [show (List.replicate 7 1 : List Nat)
        = List.replicate (List.map (fun x => x.2 + mDig x) cols).length 1 from by
      rw [hlen7],
    add_encode (by simp), zip_add_ones, List.map_map]
  congr 1
  apply List.map_congr_left
  intro a ha
  have h0 : 0 < 2 ^ a.1 := Nat.pos_pow_of_pos _ (by omega)
  simp only [Function.comp]
  unfold mDig kDig
  omega

theorem key_ne_zero (p : Position) : p.key ≠ 0 := by
  unfold Position.key
  have h : BOTTOM_MASK = 4432676798593 := by decide
  omega

theorem kdigit_inj {h1 q1 h2 q2 : Nat} (hq1 : q1 < 2 ^ h1) (hq2 : q2 < 2 ^ h2)
    (h : q1 + 2 ^ h1 = q2 + 2 ^ h2) : h1 = h2 ∧ q1 = q2 := by
  rcases Nat.lt_trichotomy h1 h2 with hlt | heq | hgt
  · exfalso
    have hle : (2 : Nat) ^ (h1 + 1) ≤ 2 ^ h2 := Nat.pow_le_pow_right (by omega) hlt
    have : (2 : Nat) ^ (h1 + 1) = 2 * 2 ^ h1 := by ring
    omega
  · exact ⟨heq, by subst heq; omega⟩
  · exfalso
    have hle : (2 : Nat) ^ (h2 + 1) ≤ 2 ^ h1 := Nat.pow_le_pow_right (by omega) hgt
    have : (2 : Nat) ^ (h2 + 1) = 2 * 2 ^ h2 := by ring
    omega

/-- Key injectivity over invariant-satisfying positions. -/
theorem key_inj {p q : Position} (hIp : Inv p) (hIq : Inv q)
    (hk : p.key = q.key) : p = q := by
  obtain ⟨cols, hIWp⟩ := hIp
  obtain ⟨cols', hIWq⟩ := hIq
  have hlen : cols.length = cols'.length := by
    have := hIWp.1
    have := hIWq.1
    omega
  rw [key_encode hIWp, key_encode hIWq] at hk
  have hmaps : cols.map kDig = cols'.map kDig :=
    encode_inj (digitsK hIWp.2.1) (digitsK hIWq.2.1) (by simpa using hlen) hk
  have hcols : cols = cols' := by
    apply List.ext_getElem hlen
    intro n hn1 hn2
    show cols.get ⟨n, hn1⟩ = cols'.get ⟨n, hn2⟩
    have h3 : (cols.map kDig).get? n = (cols'.map kDig).get? n := by rw [hmaps]
    rw [List.get?_eq_get (by simpa using hn1),
      List.get?_eq_get (by simpa using hn2)] at h3
    have h4 := Option.some.inj h3
    have h1 : (cols.map kDig).get ⟨n, by simpa using hn1⟩
        = kDig (cols.get ⟨n, hn1⟩) := List.get_map ..
    have h2 : (cols'.map kDig).get ⟨n, by simpa using hn2⟩
        = kDig (cols'.get ⟨n, hn2⟩) := List.get_map ..
    rw [h1, h2] at h4
    unfold kDig at h4
    have hb1 := (hIWp.2.1 _ (List.get_mem cols n hn1)).2
    have hb2 := (hIWq.2.1 _ (List.get_mem cols' n hn2)).2
    have hpair := kdigit_inj hb1 hb2 h4
    exact Prod.ext hpair.1 hpair.2
  obtain ⟨_, _, hm1, hp1, hv1⟩ := hIWp
  obtain ⟨_, _, hm2, hp2, hv2⟩ := hIWq
  cases p
  cases q
  simp only [Position.mk.injEq]
  subst hcols
  simp only at hm1 hp1 hv1 hm2 hp2 hv2
  exact ⟨hm1.trans hm2.symm, hp1.trans hp2.symm, hv1.trans hv2.symm⟩

/-- The hypothetical landing cell computed by `is_winning_move`: the single
bit `2^(7c+h)` when the column has room, and `0` on a full column (the
carry reaches the guard bit, which `column_mask` removes). -/
theorem new_piece_eq {p : Position} {cols : List (Nat × Nat)} {c : Nat}
    (hI : InvWith p cols) (hcl : c < cols.length) :
    (p.mask + bottom_mask c) &&& column_mask c
      = 2 ^ (cols.get ⟨c, hcl⟩).1 % 64 * 128 ^ c := by
  have hok := hI.2.1
  have hmem := List.get_mem cols c hcl
  have hh6 : (cols.get ⟨c, hcl⟩).1 ≤ 6 := (hok _ hmem).1
  have hple : (2 : Nat) ^ (cols.get ⟨c, hcl⟩).1 ≤ 2 ^ 6 :=
    Nat.pow_le_pow_right (by omega) hh6
  have hmap : c < (cols.map mDig).length := by simpa using hcl
  have hSdig : Digits ((cols.map mDig).set c (2 ^ (cols.get ⟨c, hcl⟩).1)) :=
    digits_set (digitsM hok) (by omega) c
  rw [grav_encode hI hcl, column_mask_eq,
    land_single hSdig c (by simpa using hcl) (by norm_num)]
  have hgetset : ((cols.map mDig).set c (2 ^ (cols.get ⟨c, hcl⟩).1)).get
      ⟨c, by simpa using hcl⟩ = 2 ^ (cols.get ⟨c, hcl⟩).1 := by
    rw [List.get_eq_getElem, List.getElem_set]
    simp
  rw [hgetset]
  congr 1
  have h63 : (63 : Nat) = 2 ^ 6 - 1 := by norm_num
  rw [h63, Nat.and_pow_two_sub_one_eq_mod]

/-- `is_winning_move` on a playable column tests the alignment obtained by
adding the landing bit to the current player's stones. -/
theorem is_winning_move_eq {p : Position} {cols : List (Nat × Nat)} {c : Nat}
    (hI : InvWith p cols) (hcl : c < cols.length)
    (h5 : (cols.get ⟨c, hcl⟩).1 ≤ 5) :
    p.is_winning_move c
      = alignment (p.position ||| 2 ^ (7 * c + (cols.get ⟨c, hcl⟩).1)) := by
  show alignment (p.position ||| ((p.mask + bottom_mask c) &&& column_mask c)) = _
  rw [new_piece_eq hI hcl]
  have hlt : (2 : Nat) ^ (cols.get ⟨c, hcl⟩).1 < 64 := by
    have : (2 : Nat) ^ (cols.get ⟨c, hcl⟩).1 ≤ 2 ^ 5 :=
      Nat.pow_le_pow_right (by omega) h5
    omega
  rw [Nat.mod_eq_of_lt hlt]
  have hpow : 2 ^ (cols.get ⟨c, hcl⟩).1 * 128 ^ c
      = 2 ^ (7 * c + (cols.get ⟨c, hcl⟩).1) := by
    rw [pow128_eq, ← Nat.pow_add, Nat.add_comm]
  rw [hpow]

/-- `is_winning_move` on a full column: the landing cell is masked to zero,
so the test degenerates to an alignment check of the existing stones. -/
theorem is_winning_move_full {p : Position} {cols : List (Nat × Nat)} {c : Nat}
    (hI : InvWith p cols) (hcl : c < cols.length)
    (h6 : (cols.get ⟨c, hcl⟩).1 = 6) :
    (p.mask + bottom_mask c) &&& column_mask c = 0 ∧
    p.is_winning_move c = alignment p.position := by
  have h0 : (p.mask + bottom_mask c) &&& column_mask c = 0 := by
    rw [new_piece_eq hI hcl, h6]
    norm_num
  refine ⟨h0, ?_⟩
  show alignment (p.position ||| ((p.mask + bottom_mask c) &&& column_mask c)) = _
  rw [h0, Nat.or_zero]

theorem lor_single {l : List Nat} (hl : Digits l) {v : Nat} (c : Nat)
    (hc : c < l.length) (hv : v < 128) :
    encode l ||| (v * 128 ^ c) = encode (l.set c ((l.get ⟨c, hc⟩) ||| v)) := by
  induction l generalizing c with
  | nil => simp at hc
  | cons d t ih =>
    have hd : d < 128 := hl d (by simp)
    cases c with
    | zero =>
      have key := @lor_digit 7 d v (encode t) 0 (by omega) (by omega)
      simp only [Nat.mul_zero, Nat.add_zero, Nat.or_zero] at key
      have h7 : d + 2 ^ 7 * encode t = encode (d :: t) := by
        rw [encode_cons]; norm_num
      rw [h7] at key
      have h8 : v * 128 ^ 0 = v := by norm_num
      rw [h8, key, List.set_cons_zero, encode_cons]
      have hg : (d :: t).get ⟨0, hc⟩ = d := rfl
      rw [hg]
      norm_num
    | succ c =>
      have hc' : c < t.length := by simpa using hc
      have key := @lor_digit 7 d 0 (encode t) (v * 128 ^ c) (by omega) (by omega)
      simp only [Nat.or_zero, Nat.zero_add] at key
      have h7 : d + 2 ^ 7 * encode t = encode (d :: t) := by
        rw [encode_cons]; norm_num
      have h8 : 2 ^ 7 * (v * 128 ^ c) = v * 128 ^ (c + 1) := by norm_num; ring
      rw [h7, h8, ih (fun x hx => hl x (by simp [hx])) c hc'] at key
      rw [key, List.set_cons_succ, encode_cons]
      have hg : (d :: t).get ⟨c + 1, hc⟩ = t.get ⟨c, hc'⟩ := rfl
      rw [hg]
      norm_num

theorem lor_two_pow_of_testBit {x j : Nat} (h : x.testBit j = false) :
    x ||| 2 ^ j = x + 2 ^ j := by
  induction j generalizing x with
  | zero =>
    rw [Nat.testBit_zero] at h
    have hx2 : x % 2 = 0 := by simpa using h
    have key := @lor_digit 1 0 1 (x / 2) 0 (by omega) (by omega)
    simp only [Nat.mul_zero, Nat.add_zero, Nat.zero_add, Nat.zero_or,
      Nat.or_zero, pow_one] at key
    have hx : x = 2 * (x / 2) := by omega
    rw [pow_zero, hx]
    omega
  | succ j ih =>
    rw [Nat.testBit_succ] at h
    have key := @lor_digit 1 (x % 2) 0 (x / 2) (2 ^ j) (by omega) (by omega)
    simp only [Nat.or_zero, Nat.zero_add, pow_one] at key
    have hx : x % 2 + 2 * (x / 2) = x := by omega
    have hp : 2 * 2 ^ j = 2 ^ (j + 1) := by ring
    rw [hx, hp, ih h] at key
    rw [key]
    omega

theorem land_two_pow_of_testBit {x j : Nat} (h : x.testBit j = false) :
    x &&& 2 ^ j = 0 := by
  rw [Nat.and_two_pow, h]
  simp

theorem land_lor_left (a b c : Nat) :
    a &&& (b ||| c) = (a &&& b) ||| (a &&& c) := by
  apply Nat.eq_of_testBit_eq
  intro i
  simp only [Nat.testBit_land, Nat.testBit_lor]
  cases a.testBit i <;> cases b.testBit i <;> cases c.testBit i <;> rfl

theorem xor_lor_cancel {a b : Nat} (h : a &&& b = 0) :
    a ^^^ (a ||| b) = b := by
  apply Nat.eq_of_testBit_eq
  intro i
  have hi : (a &&& b).testBit i = false := by rw [h]; exact Nat.zero_testBit i
  rw [Nat.testBit_land] at hi
  simp only [Nat.testBit_xor, Nat.testBit_lor]
  cases ha : a.testBit i <;> cases hb : b.testBit i <;> simp_all

/-- The single new bit produced by a legal move: `make_move` adds exactly
`2^(7c + h)` to the mask; that bit is the lowest empty cell of column `c`
(all cells below are occupied), and it is exactly the landing cell that
`is_winning_move` computes. -/
theorem make_move_newbit {p : Position} {cols : List (Nat × Nat)} {c : Nat}
    (hI : InvWith p cols) (hcl : c < cols.length)
    (h5 : (cols.get ⟨c, hcl⟩).1 ≤ 5) :
    (p.make_move c).mask = p.mask + 2 ^ (7 * c + (cols.get ⟨c, hcl⟩).1) ∧
    p.mask.testBit (7 * c + (cols.get ⟨c, hcl⟩).1) = false ∧
    (∀ s, s < (cols.get ⟨c, hcl⟩).1 → p.mask.testBit (7 * c + s) = true) ∧
    (p.mask + bottom_mask c) &&& column_mask c
      = 2 ^ (7 * c + (cols.get ⟨c, hcl⟩).1) := by
  have hok := hI.2.1
  have hm := hI.2.2.1
  have hmem := List.get_mem cols c hcl
  have hmap : c < (cols.map mDig).length := by simpa using hcl
  have hget : (cols.map mDig).get ⟨c, hmap⟩ = mDig (cols.get ⟨c, hcl⟩) :=
    List.get_map ..
  refine ⟨(make_move_invWith hI hcl h5).2, ?_, ?_, ?_⟩
  · rw [hm, maskOf, encode_testBit (digitsM hok) c _ hmap (by omega), hget]
    unfold mDig
    rw [Nat.testBit_two_pow_sub_one]
    simp
  · intro s hs
    rw [hm, maskOf, encode_testBit (digitsM hok) c s hmap (by omega), hget]
    unfold mDig
    rw [Nat.testBit_two_pow_sub_one]
    simpa using hs
  · rw [new_piece_eq hI hcl]
    have hlt : (2 : Nat) ^ (cols.get ⟨c, hcl⟩).1 < 64 := by
      have : (2 : Nat) ^ (cols.get ⟨c, hcl⟩).1 ≤ 2 ^ 5 :=
        Nat.pow_le_pow_right (by omega) h5
      omega
    rw [Nat.mod_eq_of_lt hlt, pow128_eq, ← Nat.pow_add, Nat.add_comm]

/-- The code's whole-mask gravity update agrees with the spec's
isolated-column carry: `mask | (mask + bottom)` equals
`mask | ((mask & column_mask) + bottom)` under the invariant. -/
theorem make_move_isolated {p : Position} {cols : List (Nat × Nat)} {c : Nat}
    (hI : InvWith p cols) (hcl : c < cols.length) :
    p.mask ||| ((p.mask &&& column_mask c) + bottom_mask c)
      = (p.make_move c).mask := by
  have hok := hI.2.1
  have hm := hI.2.2.1
  have hmem := List.get_mem cols c hcl
  have hh6 : (cols.get ⟨c, hcl⟩).1 ≤ 6 := (hok _ hmem).1
  have hple : (2 : Nat) ^ (cols.get ⟨c, hcl⟩).1 ≤ 2 ^ 6 :=
    Nat.pow_le_pow_right (by omega) hh6
  have h0 : 0 < 2 ^ (cols.get ⟨c, hcl⟩).1 := Nat.pos_pow_of_pos _ (by omega)
  have hmap : c < (cols.map mDig).length := by simpa using hcl
  have hget : (cols.map mDig).get ⟨c, hmap⟩ = mDig (cols.get ⟨c, hcl⟩) :=
    List.get_map ..
  -- the isolated column bits
  have hiso : p.mask &&& column_mask c = mDig (cols.get ⟨c, hcl⟩) * 128 ^ c := by
    rw [hm, maskOf, column_mask_eq, land_single (digitsM hok) c hmap (by norm_num),
      hget]
    congr 1
    have h63 : (63 : Nat) = 2 ^ 6 - 1 := by norm_num
    rw [h63, Nat.and_pow_two_sub_one_eq_mod]
    unfold mDig
    exact Nat.mod_eq_of_lt (by omega)
  -- isolated bits plus the bottom bit: the landing bit as a digit
  have hadd : (p.mask &&& column_mask c) + bottom_mask c
      = 2 ^ (cols.get ⟨c, hcl⟩).1 * 128 ^ c := by
    rw [hiso, bottom_mask_eq]
    unfold mDig
    have e : (2 : Nat) ^ (cols.get ⟨c, hcl⟩).1
        = (2 ^ (cols.get ⟨c, hcl⟩).1 - 1) + 1 := by omega
    calc (2 ^ (cols.get ⟨c, hcl⟩).1 - 1) * 128 ^ c + 128 ^ c
        = ((2 ^ (cols.get ⟨c, hcl⟩).1 - 1) + 1) * 128 ^ c := by ring
      _ = 2 ^ (cols.get ⟨c, hcl⟩).1 * 128 ^ c := by rw [← e]
  rw [hadd]
  -- OR the landing digit into the mask
  have hIW := hI
  show p.mask ||| 2 ^ (cols.get ⟨c, hcl⟩).1 * 128 ^ c
      = p.mask ||| (p.mask + bottom_mask c)
  rw [grav_encode hIW hcl]
  conv_lhs => rw [hm]
  conv_rhs => rw [hm]
  rw [maskOf, lor_single (digitsM hok) c hmap (by omega), hget,
    lor_encode (digitsM hok) (digits_set (digitsM hok) (by omega) c) (by simp),
    zipWith_self_set Nat.or_self (cols.map mDig) c
      (2 ^ (cols.get ⟨c, hcl⟩).1) hmap, hget]

theorem reachable_foldl (ms : List Nat) {p : Position} (hp : Reachable p)
    (hl : legalSeq p ms = true) :
    Reachable (ms.foldl Position.make_move p) := by
  induction ms generalizing p with
  | nil => exact hp
  | cons c rest ih =>
    simp only [legalSeq, Bool.and_eq_true, decide_eq_true_eq] at hl
    obtain ⟨⟨hc7, hcp⟩, hrest⟩ := hl
    rw [List.foldl_cons]
    exact ih (Reachable.step hp hc7 hcp) hrest

/-- The ghost two-player run agrees with the bitboard run: along any legal
sequence, the bitboard's `position` is the stones of the player to move,
`mask` is the union of both players' stones, and the two stone sets are
disjoint. -/
theorem play2_spec (ms : List Nat) :
    ∀ p : Position, Reachable p → legalSeq p ms = true →
      ∀ cur opp : Nat, p.position = cur → p.mask = cur ||| opp →
        cur &&& opp = 0 →
        (ms.foldl Position.make_move p).position = (play2 (cur, opp) ms).1 ∧
        (ms.foldl Position.make_move p).mask
          = (play2 (cur, opp) ms).1 ||| (play2 (cur, opp) ms).2 ∧
        (play2 (cur, opp) ms).1 &&& (play2 (cur, opp) ms).2 = 0 := by
  induction ms with
  | nil =>
    intro p hR hl cur opp h1 h2 h3
    exact ⟨h1, h2, h3⟩
  | cons c rest ih =>
    intro p hR hl cur opp h1 h2 h3
    simp only [legalSeq, Bool.and_eq_true, decide_eq_true_eq] at hl
    obtain ⟨⟨hc7, hcp⟩, hrest⟩ := hl
    obtain ⟨cols, hIW⟩ := hR.inv
    have hcl : c < cols.length := by
      have := hIW.1
      omega
    have h5 := (can_play_iff hIW hcl).mp hcp
    obtain ⟨hadd, hbit, hbelow, hpiece⟩ := make_move_newbit hIW hcl h5
    have hm2 := hIW.2.2.1
    have hland : ((cur ||| opp) + bottom_mask c) &&& column_mask c
        = 2 ^ (7 * c + (cols.get ⟨c, hcl⟩).1) := by
      rw [← h2]
      exact hpiece
    have hbit2 : (cur ||| opp).testBit (7 * c + (cols.get ⟨c, hcl⟩).1) = false := by
      rw [← h2]
      exact hbit
    have hbit3 := hbit2
    rw [Nat.testBit_lor] at hbit3
    have hoppbit : opp.testBit (7 * c + (cols.get ⟨c, hcl⟩).1) = false := by
      cases hb : opp.testBit (7 * c + (cols.get ⟨c, hcl⟩).1)
      · rfl
      · rw [hb] at hbit3
        simp at hbit3
    have hpos' : (p.make_move c).position = opp := by
      show p.position ^^^ p.mask = opp
      rw [h1, h2]
      exact xor_lor_cancel h3
    have hmask' : (p.make_move c).mask
        = opp ||| (cur ||| 2 ^ (7 * c + (cols.get ⟨c, hcl⟩).1)) := by
      rw [hadd, h2, ← lor_two_pow_of_testBit hbit2]
      apply Nat.eq_of_testBit_eq
      intro i
      simp only [Nat.testBit_lor]
      cases cur.testBit i <;> cases opp.testBit i <;>
        cases (2 ^ (7 * c + (cols.get ⟨c, hcl⟩).1)).testBit i <;> rfl
    have hdisj' : opp &&& (cur ||| 2 ^ (7 * c + (cols.get ⟨c, hcl⟩).1)) = 0 := by
      rw [land_lor_left]
      have e1 : opp &&& cur = 0 := by rw [Nat.and_comm]; exact h3
      have e2 : opp &&& 2 ^ (7 * c + (cols.get ⟨c, hcl⟩).1) = 0 :=
        land_two_pow_of_testBit hoppbit
      rw [e1, e2]
      rfl
    have hR' : Reachable (p.make_move c) := hR.step hc7 hcp
    have hrec := ih (p.make_move c) hR' hrest opp
      (cur ||| 2 ^ (7 * c + (cols.get ⟨c, hcl⟩).1)) hpos' hmask' hdisj'
    have hplay : play2 (cur, opp) (c :: rest)
        = play2 (opp, cur ||| 2 ^ (7 * c + (cols.get ⟨c, hcl⟩).1)) rest := by
      show play2 (opp, cur ||| (((cur ||| opp) + bottom_mask c) &&& column_mask c))
            rest = _
      rw [hland]
    rw [List.foldl_cons, hplay]
    exact hrec

/-- Claim C2: a legal move on a reachable non-full position (1) replaces the
current-player bitboard by its XOR with the old occupancy mask, (2) updates
the mask exactly as the spec's isolated-column carry trick does, (3) sets
exactly one new mask bit, the lowest empty cell of the played column, and
(4) increments the move counter by one. -/
theorem C2_make_move_effects {p : Position} {c : Nat} (hR : Reachable p)
    (hnf : p.moves < 42) (hc : c < 7) (hcp : p.can_play c = true) :
    (p.make_move c).position = p.position ^^^ p.mask ∧
    (p.make_move c).mask
      = p.mask ||| ((p.mask &&& column_mask c) + bottom_mask c) ∧
    (∃ r, r ≤ 5 ∧ (p.make_move c).mask = p.mask + 2 ^ (7 * c + r) ∧
      p.mask.testBit (7 * c + r) = false ∧
      (∀ s, s < r → p.mask.testBit (7 * c + s) = true)) ∧
    (p.make_move c).moves = p.moves + 1 := by
  obtain ⟨cols, hIW⟩ := hR.inv
  have hcl : c < cols.length := by
    have := hIW.1
    omega
  have h5 := (can_play_iff hIW hcl).mp hcp
  obtain ⟨hadd, hbit, hbelow, _⟩ := make_move_newbit hIW hcl h5
  exact ⟨rfl, (make_move_isolated hIW hcl).symm,
    ⟨(cols.get ⟨c, hcl⟩).1, h5, hadd, hbit, hbelow⟩, rfl⟩

theorem C2_make_move_effects_witness :
    start.can_play 3 = true ∧ (start.make_move 3).moves = start.moves + 1 :=
  ⟨by decide,
    (C2_make_move_effects Reachable.init (by decide) (by decide) (by decide)).2.2.2⟩

/-- Claim C3: the memoization key equals
`currentPlayerStones + occupied + BOTTOM_MASK`; it is injective and nonzero
over reachable positions. -/
theorem C3_key_injective {p q : Position} (hp : Reachable p) (hq : Reachable q) :
    p.key = p.position + p.mask + BOTTOM_MASK ∧
    (p.key = q.key → p = q) ∧
    p.key ≠ 0 :=
  ⟨rfl, fun h => key_inj hp.inv hq.inv h, key_ne_zero p⟩

theorem C3_key_injective_witness :
    start.key = start.position + start.mask + BOTTOM_MASK ∧ start.key ≠ 0 :=
  ⟨(C3_key_injective Reachable.init Reachable.init).1,
    (C3_key_injective Reachable.init Reachable.init).2.2⟩

/-- Claim C4: after any legal move sequence from the empty board,
`popcount mask = moves`, the current player's stones are a subset of the
mask, every column's guard bit is clear, and `mask XOR position` is exactly
the waiting player's stones (per the two-player ghost semantics `play2`). -/
theorem C4_invariants (ms : List Nat) (hl : legalSeq start ms = true) :
    popcount (ms.foldl Position.make_move start).mask
      = (ms.foldl Position.make_move start).moves ∧
    (ms.foldl Position.make_move start).position
        &&& (ms.foldl Position.make_move start).mask
      = (ms.foldl Position.make_move start).position ∧
    (∀ c, c < 7 →
      (ms.foldl Position.make_move start).mask.testBit (7 * c + 6) = false) ∧
    (ms.foldl Position.make_move start).mask
        ^^^ (ms.foldl Position.make_move start).position
      = (play2 (0, 0) ms).2 := by
  have hR := reachable_foldl ms Reachable.init hl
  obtain ⟨cols, hIW⟩ := hR.inv
  have hsp := play2_spec ms start Reachable.init hl 0 0 rfl rfl rfl
  refine ⟨popcount_mask hIW, position_land_mask hIW,
    fun c hc => guard_bit_false hIW hc, ?_⟩
  rw [hsp.2.1, hsp.1, Nat.xor_comm]
  exact xor_lor_cancel hsp.2.2

theorem C4_invariants_witness :
    legalSeq start [3, 3, 2] = true ∧
    popcount (([3, 3, 2] : List Nat).foldl Position.make_move start).mask
      = (([3, 3, 2] : List Nat).foldl Position.make_move start).moves :=
  ⟨by decide, (C4_invariants [3, 3, 2] (by decide)).1⟩

/-- Claim C7: `put` unconditionally overwrites the single slot at
`key mod capacity` and leaves every other slot unchanged; `get` returns the
stored value only when the stored key matches and 0 otherwise; hence two
distinct keys sharing an index never see each other's stored value. -/
theorem C7_transposition_table (t : TT) (k k2 : Nat) (v : Int) :
    (t.put k v).entries (t.index k) = (k, v) ∧
    (∀ i, i ≠ t.index k → (t.put k v).entries i = t.entries i) ∧
    ((t.entries (t.index k2)).1 = k2 → t.get k2 = (t.entries (t.index k2)).2) ∧
    ((t.entries (t.index k2)).1 ≠ k2 → t.get k2 = 0) ∧
    (k2 ≠ k → t.index k2 = t.index k → (t.put k v).get k2 = 0) := by
  refine ⟨by simp [TT.put], fun i hi => by simp [TT.put, hi], ?_, ?_, ?_⟩
  · intro h
    simp [TT.get, h]
  · intro h
    simp [TT.get, h]
  · intro hne hidx
    have hsz : (t.put k v).size = t.size := rfl
    unfold TT.get
    have hidx2 : (t.put k v).index k2 = t.index k := by
      unfold TT.index at hidx ⊢
      rw [hsz, hidx]
    rw [hidx2]
    have : (t.put k v).entries (t.index k) = (k, v) := by simp [TT.put]
    rw [this]
    simp [hne.symm]

theorem C7_transposition_table_witness :
    (8 : Nat) ≠ 1 ∧ (TT.init 7).index 8 = (TT.init 7).index 1 ∧
    ((TT.init 7).put 1 5).get 8 = 0 :=
  ⟨by decide, by decide,
    (C7_transposition_table (TT.init 7) 1 8 5).2.2.2.2 (by decide) (by decide)⟩

/-- Claim C10: `is_winning_move` on a full column is total and harmless:
the computed landing cell is 0 (the carry reaches the guard bit, which
`column_mask` strips), so the call reduces to an alignment test of the
current player's existing stones. -/
theorem C10_winning_move_full_column {p : Position} {c : Nat}
    (hR : Reachable p) (hc : c < 7) (hfull : p.can_play c = false) :
    (p.mask + bottom_mask c) &&& column_mask c = 0 ∧
    p.is_winning_move c = alignment p.position := by
  obtain ⟨cols, hIW⟩ := hR.inv
  have hcl : c < cols.length := by
    have := hIW.1
    omega
  have hle := (hIW.2.1 _ (List.get_mem cols c hcl)).1
  have hn : ¬ (cols.get ⟨c, hcl⟩).1 ≤ 5 := by
    intro hh
    rw [(can_play_iff hIW hcl).mpr hh] at hfull
    simp at hfull
  have h6 : (cols.get ⟨c, hcl⟩).1 = 6 := by omega
  exact is_winning_move_full hIW hcl h6

theorem C10_winning_move_full_column_witness :
    ((List.replicate 6 0).foldl Position.make_move start).can_play 0 = false ∧
    ((List.replicate 6 0).foldl Position.make_move start).is_winning_move 0
      = alignment ((List.replicate 6 0).foldl Position.make_move start).position :=
  ⟨by decide,
    (C10_winning_move_full_column
      (reachable_foldl (List.replicate 6 0) Reachable.init (by decide))
      (by decide) (by decide)).2⟩

end PositionInfra

section SearchInfra

theorem nmLoop_size (f : Position → Int → Int → TT → Nat → SR)
    (hf : ∀ q a b tt n, (f q a b tt n).tt.size = tt.size) :
    ∀ (cols : List Nat) (p : Position) (a b : Int) (tt : TT) (n : Nat),
      (nmLoop f cols p a b tt n).tt.size = tt.size := by
  intro cols
  induction cols with
  | nil => intro p a b tt n; rfl
  | cons c rest ih =>
    intro p a b tt n
    simp only [nmLoop]
    split
    · split
      · exact hf ..
      · exact (ih ..).trans (hf ..)
    · exact ih ..

theorem negamax_size : ∀ (fuel : Nat) (p : Position) (a b : Int) (tt : TT)
    (n : Nat), (negamax fuel p a b tt n).tt.size = tt.size := by
  intro fuel
  induction fuel with
  | zero => intro p a b tt n; rfl
  | succ f ih =>
    intro p a b tt n
    simp only [negamax]
    repeat' split
    all_goals first
      | rfl
      | exact nmLoop_size (negamax f) (fun q a b tt n => ih q a b tt n) ..

theorem mem_column_order {c : Nat} (hc : c < 7) : c ∈ COLUMN_ORDER := by
  interval_cases c <;> decide

theorem winNow_of_exists {p : Position}
    (h : ∃ c, c < 7 ∧ p.can_play c = true ∧ p.is_winning_move c = true) :
    winNow p = true := by
  obtain ⟨c, hc, hcp, hwm⟩ := h
  unfold winNow
  rw [List.any_eq_true]
  refine ⟨c, mem_column_order hc, ?_⟩
  rw [hcp, hwm]
  rfl

theorem winNow_eq_false {p : Position}
    (h : ∀ c, c < 7 → ¬(p.can_play c = true ∧ p.is_winning_move c = true)) :
    winNow p = false := by
  unfold winNow
  rw [List.any_eq_false]
  intro c hmem
  have hc : c < 7 := by fin_cases hmem <;> decide
  intro hand
  rw [Bool.and_eq_true] at hand
  exact h c hc hand

end SearchInfra

section ClaimC5C6C9

/-- Claim C5: on a position where the player to move has a playable column
whose drop completes four-in-a-row, `negamax` returns exactly
`(42 + 1 - moves) / 2` immediately: one node counted, no recursion into any
child, and the transposition table untouched. -/
theorem C5_immediate_win {p : Position} (hR : Reachable p)
    (hwin : ∃ c, c < 7 ∧ p.can_play c = true ∧ p.is_winning_move c = true)
    (fuel : Nat) (hf : 0 < fuel) (alpha beta : Int) (tt : TT) (n : Nat) :
    negamax fuel p alpha beta tt n
      = ⟨((7 * 6 : Int) + 1 - (p.moves : Int)) / 2, tt, n + 1, []⟩ := by
  obtain ⟨f, rfl⟩ : ∃ f, fuel = f + 1 := ⟨fuel - 1, by omega⟩
  have hw : winNow p = true := winNow_of_exists hwin
  simp only [negamax, hw, if_true]
  rfl

theorem C5_immediate_win_witness :
    (∃ c, c < 7 ∧
      (([0, 1, 0, 1, 0, 1] : List Nat).foldl Position.make_move start).can_play c
        = true ∧
      (([0, 1, 0, 1, 0, 1] : List Nat).foldl
        Position.make_move start).is_winning_move c = true) ∧
    negamax 43 (([0, 1, 0, 1, 0, 1] : List Nat).foldl Position.make_move start)
        (-21) 21 (TT.init 7) 0
      = ⟨((7 * 6 : Int) + 1
          - ((([0, 1, 0, 1, 0, 1] : List Nat).foldl
              Position.make_move start).moves : Int)) / 2,
        TT.init 7, 0 + 1, []⟩ :=
  ⟨⟨0, by decide, by decide, by decide⟩,
    C5_immediate_win
      (reachable_foldl [0, 1, 0, 1, 0, 1] Reachable.init (by decide))
      ⟨0, by decide, by decide, by decide⟩ 43 (by decide) (-21) 21 (TT.init 7) 0⟩

/-- Claim C6: on a reachable position with at most one empty cell
(`moves ≥ 41`) and no immediate winning drop, `negamax` returns 0; in
particular `solve` on a completely full board with no alignment for the
player to move returns exactly 0. -/
theorem C6_draw {p : Position} (hR : Reachable p) (h41 : 41 ≤ p.moves)
    (hnw : ∀ c, c < 7 → ¬(p.can_play c = true ∧ p.is_winning_move c = true))
    (fuel : Nat) (hf : 0 < fuel) (alpha beta : Int) (tt : TT) (n : Nat) :
    (negamax fuel p alpha beta tt n).score = 0 ∧
    (p.moves = 42 → alignment p.position = false → (solve p tt).score = 0) := by
  have hw : winNow p = false := winNow_eq_false hnw
  have hgen : ∀ (fl : Nat), 0 < fl → ∀ (a b : Int) (t : TT) (m : Nat),
      (negamax fl p a b t m).score = 0 := by
    intro fl hfl a b t m
    obtain ⟨f, rfl⟩ : ∃ f, fl = f + 1 := ⟨fl - 1, by omega⟩
    simp only [negamax, hw, if_false, Bool.false_eq_true]
    split
    · rfl
    · next h => exact absurd (by omega) h
  exact ⟨hgen fuel hf alpha beta tt n,
    fun _ _ => hgen 43 (by omega) (-(7 * 6 : Int) / 2) ((7 * 6 + 1 : Int) / 2) tt 0⟩

theorem C6_draw_witness :
    41 ≤ (drawSeq.foldl Position.make_move start).moves ∧
    alignment (drawSeq.foldl Position.make_move start).position = false ∧
    (solve (drawSeq.foldl Position.make_move start) (TT.init 7)).score = 0 :=
  ⟨by decide, by decide,
    (C6_draw
      (reachable_foldl drawSeq Reachable.init (by decide))
      (by decide) (by decide) 43 (by decide) 0 0 (TT.init 7) 0).2
      (by decide) (by decide)⟩

/-- Claim C9: solving the same position twice, each time on a freshly reset
transposition table, yields identical scores and identical node counts; the
reset erases everything the first run stored. -/
theorem C9_determinism (p : Position) (tt : TT) :
    (solve p ((solve p tt.reset).tt.reset)).score = (solve p tt.reset).score ∧
    (solve p ((solve p tt.reset).tt.reset)).nodes = (solve p tt.reset).nodes := by
  have hsz : (solve p tt.reset).tt.size = tt.size := negamax_size ..
  have hre : (solve p tt.reset).tt.reset = tt.reset := by
    show (⟨(solve p tt.reset).tt.size, fun _ => ((0 : Nat), (0 : Int))⟩ : TT)
        = ⟨tt.size, fun _ => ((0 : Nat), (0 : Int))⟩
    rw [hsz]
  rw [hre]
  exact ⟨rfl, rfl⟩

end ClaimC5C6C9

section RefNegamax

theorem refWin {p : Position} {fuel : Nat} (h : winNow p = true) :
    negamaxRef (fuel + 1) p = winScore p := by
  simp [negamaxRef, h]

theorem refDraw {p : Position} {fuel : Nat} (hw : winNow p = false)
    (h : 41 ≤ p.moves) : negamaxRef (fuel + 1) p = 0 := by
  simp only [negamaxRef, hw, Bool.false_eq_true, if_false]
  split
  · rfl
  · next hcon => exact absurd (by omega) hcon

theorem refStep {p : Position} {fuel : Nat} (hw : winNow p = false)
    (h : p.moves ≤ 40) :
    negamaxRef (fuel + 1) p
      = ((COLUMN_ORDER.filter fun c => p.can_play c).map
          fun c => -negamaxRef fuel (p.make_move c)).foldr max (-1000) := by
  simp only [negamaxRef, hw, Bool.false_eq_true, if_false]
  split
  · next hcon => exact absurd hcon (by omega)
  · rfl

theorem column_order_lt {c : Nat} (h : c ∈ COLUMN_ORDER) : c < 7 := by
  fin_cases h <;> decide

theorem negamax_win_eq {p : Position} {fuel : Nat} (hw : winNow p = true)
    (a b : Int) (tt : TT) (n : Nat) :
    negamax (fuel + 1) p a b tt n = ⟨winScore p, tt, n + 1, []⟩ := by
  simp only [negamax, hw, if_true]

theorem negamax_draw_eq {p : Position} {fuel : Nat} (hw : winNow p = false)
    (h41 : 41 ≤ p.moves) (a b : Int) (tt : TT) (n : Nat) :
    negamax (fuel + 1) p a b tt n = ⟨0, tt, n + 1, []⟩ := by
  simp only [negamax, hw, Bool.false_eq_true, if_false]
  split
  · rfl
  · next hcon => exact absurd (by omega) hcon

/-- The full-width negamax value does not depend on the fuel, as long as the
fuel covers the remaining depth. -/
theorem negamaxRef_congr : ∀ (f1 : Nat) (f2 : Nat) (p : Position), Inv p →
    43 - p.moves ≤ f1 → 43 - p.moves ≤ f2 → negamaxRef f1 p = negamaxRef f2 p := by
  intro f1
  induction f1 with
  | zero =>
    intro f2 p hI h1 h2
    have := moves_le_42 hI
    omega
  | succ f ih =>
    intro f2 p hI h1 h2
    have hm := moves_le_42 hI
    obtain ⟨g, rfl⟩ : ∃ g, f2 = g + 1 := ⟨f2 - 1, by omega⟩
    cases hw : winNow p with
    | true => rw [refWin hw, refWin hw]
    | false =>
      rcases Nat.lt_or_ge p.moves 41 with h41 | h41
      · rw [refStep hw (by omega), refStep hw (by omega)]
        congr 1
        apply List.map_congr_left
        intro c hc
        rw [List.mem_filter] at hc
        have hc7 : c < 7 := column_order_lt hc.1
        have hchild : Inv (p.make_move c) := inv_make_move hI hc7 hc.2
        have hmoves : (p.make_move c).moves = p.moves + 1 := rfl
        rw [ih g (p.make_move c) hchild (by omega) (by omega)]
      · rw [refDraw hw h41, refDraw hw h41]

theorem foldr_max_le {l : List Int} {B init : Int} (hB : ∀ x ∈ l, x ≤ B)
    (hinit : init ≤ B) : l.foldr max init ≤ B := by
  induction l with
  | nil => simpa using hinit
  | cons d t ih =>
    simp only [List.foldr_cons, max_le_iff]
    exact ⟨hB d (by simp), ih fun x hx => hB x (by simp [hx])⟩

theorem le_foldr_max {l : List Int} {x init : Int} (hx : x ∈ l) :
    x ≤ l.foldr max init := by
  induction l with
  | nil => simp at hx
  | cons d t ih =>
    simp only [List.foldr_cons]
    rcases List.mem_cons.mp hx with rfl | hmem
    · exact le_max_left ..
    · exact le_trans (ih hmem) (le_max_right ..)

theorem exists_playable {p : Position} (hI : Inv p) (h : p.moves ≤ 40) :
    ∃ c, c < 7 ∧ p.can_play c = true := by
  obtain ⟨cols, hIW⟩ := hI
  have h7 := hIW.1
  have hok := hIW.2.1
  by_contra hnone
  push_neg at hnone
  have hall : ∀ x ∈ cols.map Prod.fst, 6 ≤ x := by
    intro x hx
    rcases List.mem_map.mp hx with ⟨hq, hmem, rfl⟩
    rcases List.mem_iff_get.mp hmem with ⟨i, rfl⟩
    have hi7 : (i : Nat) < 7 := by omega
    have hne := hnone i hi7
    have hiff := can_play_iff hIW i.isLt
    rw [Fin.eta] at hiff
    by_contra hlt
    push_neg at hlt
    exact hne (hiff.mpr (by omega))
  have hsum := List.card_nsmul_le_sum (cols.map Prod.fst) 6 hall
  have hlen : (cols.map Prod.fst).length = 7 := by simp [h7]
  rw [hlen] at hsum
  have hmv := hIW.2.2.2.2
  unfold movesOf at hmv
  simp only [smul_eq_mul] at hsum
  omega

theorem alignment_pow : ∀ j : Fin 50, alignment (2 ^ (j : Nat)) = false := by
  decide

theorem winNow_position_zero {p : Position} (hI : Inv p)
    (hp0 : p.position = 0) : winNow p = false := by
  obtain ⟨cols, hIW⟩ := hI
  unfold winNow
  rw [List.any_eq_false]
  intro c hmem
  have hc7 : c < 7 := column_order_lt hmem
  have hcl : c < cols.length := by
    have := hIW.1
    omega
  rw [Bool.and_eq_true]
  rintro ⟨hcp, hwm⟩
  have h5 := (can_play_iff hIW hcl).mp hcp
  rw [is_winning_move_eq hIW hcl h5, hp0, Nat.zero_or] at hwm
  have hj : 7 * c + (cols.get ⟨c, hcl⟩).1 < 50 := by omega
  have := alignment_pow ⟨7 * c + (cols.get ⟨c, hcl⟩).1, hj⟩
  simp only at this
  rw [this] at hwm
  exact Bool.false_ne_true hwm

theorem encode_zero {l : List Nat} (h : ∀ x ∈ l, x = 0) : encode l = 0 := by
  induction l with
  | nil => rfl
  | cons d t ih =>
    rw [encode_cons, h d (by simp), ih fun x hx => h x (by simp [hx])]

theorem inv_moves_zero {p : Position} (hI : Inv p) (h0 : p.moves = 0) :
    p.position = 0 := by
  obtain ⟨cols, h7, hok, hm, hp, hv⟩ := hI
  rw [hp]
  unfold posOf
  apply encode_zero
  intro x hx
  rcases List.mem_map.mp hx with ⟨hq, hmem, rfl⟩
  have hq2 := (hok hq hmem).2
  have hhz : hq.1 = 0 := by
    rw [h0] at hv
    unfold movesOf at hv
    have hmemf : hq.1 ∈ cols.map Prod.fst := List.mem_map.mpr ⟨hq, hmem, rfl⟩
    exact (List.sum_eq_zero_iff.mp hv.symm) hq.1 hmemf
  rw [hhz] at hq2
  omega

/-- Score bounds of the full-width negamax: at most `(43 - moves)/2`, at
most `(41 - moves)/2` without an immediate win (for non-terminal depth),
and at least `-((42 - moves)/2)`. -/
theorem negamaxRef_bounds : ∀ (fuel : Nat) (p : Position), Inv p →
    43 - p.moves ≤ fuel →
    (negamaxRef fuel p ≤ ((7 * 6 : Int) + 1 - (p.moves : Int)) / 2) ∧
    (winNow p = false → p.moves ≤ 40 →
      negamaxRef fuel p ≤ ((7 * 6 : Int) - 1 - (p.moves : Int)) / 2) ∧
    (-(((7 * 6 : Int) - (p.moves : Int)) / 2) ≤ negamaxRef fuel p) := by
  intro fuel
  induction fuel with
  | zero =>
    intro p hI hf
    have := moves_le_42 hI
    omega
  | succ f ih =>
    intro p hI hf
    have hm := moves_le_42 hI
    cases hw : winNow p with
    | true =>
      rw [refWin hw]
      unfold winScore
      refine ⟨le_refl _, fun hcon _ => absurd hcon (by decide), ?_⟩
      omega
    | false =>
      rcases Nat.lt_or_ge p.moves 41 with h41 | h41
      · -- non-terminal: fold over the legal children
        rw [refStep hw (by omega)]
        obtain ⟨c0, hc07, hc0p⟩ := exists_playable hI (by omega)
        have hchild : ∀ c, c ∈ COLUMN_ORDER.filter (fun c => p.can_play c) →
            Inv (p.make_move c) ∧ (p.make_move c).moves = p.moves + 1 := by
          intro c hc
          rw [List.mem_filter] at hc
          exact ⟨inv_make_move hI (column_order_lt hc.1) hc.2, rfl⟩
        have helem : ∀ x ∈ (COLUMN_ORDER.filter (fun c => p.can_play c)).map
            (fun c => -negamaxRef f (p.make_move c)),
            -(((7 * 6 : Int) + 1 - ((p.moves : Int) + 1)) / 2) ≤ x ∧
            x ≤ ((7 * 6 : Int) - ((p.moves : Int) + 1)) / 2 := by
          intro x hx
          rcases List.mem_map.mp hx with ⟨c, hc, rfl⟩
          obtain ⟨hcI, hcm⟩ := hchild c hc
          have hrec := ih (p.make_move c) hcI (by rw [hcm]; omega)
          rw [hcm] at hrec
          push_cast at hrec ⊢
          constructor
          · have := hrec.1
            omega
          · have := hrec.2.2
            omega
        refine ⟨?_, fun _ _ => ?_, ?_⟩
        · apply foldr_max_le
          · intro x hx
            have := (helem x hx).2
            omega
          · omega
        · apply foldr_max_le
          · intro x hx
            have := (helem x hx).2
            omega
          · omega
        · have hmem : -negamaxRef f (p.make_move c0)
              ∈ (COLUMN_ORDER.filter (fun c => p.can_play c)).map
                (fun c => -negamaxRef f (p.make_move c)) := by
            apply List.mem_map.mpr
            exact ⟨c0, List.mem_filter.mpr ⟨mem_column_order hc07, hc0p⟩, rfl⟩
          have h1 := (helem _ hmem).1
          have h2 := @le_foldr_max _ _ (-1000) hmem
          omega
      · rw [refDraw hw h41]
        refine ⟨by omega, fun _ hcon => by omega, by omega⟩

theorem TTok_init (s : Nat) : TTok (TT.init s) := by
  intro i
  exact ⟨fun _ => rfl, fun h => absurd rfl h⟩

theorem TTok_get {t : TT} (ht : TTok t) {k : Nat} (hk : t.get k ≠ 0) :
    -41 ≤ t.get k ∧ t.get k ≤ -1 ∧
    ∀ p : Position, Inv p → p.key = k → refScore p ≤ t.get k + 20 := by
  unfold TT.get at hk ⊢
  split at hk
  · next heq =>
    split
    · next heq2 =>
      have hne : (t.entries (t.index k)).1 ≠ 0 := by
        intro h0
        exact hk ((ht (t.index k)).1 h0)
      obtain ⟨h1, h2, h3⟩ := (ht (t.index k)).2 hne
      exact ⟨h1, h2, fun p hp hkey => h3 p hp (by rw [hkey, heq])⟩
    · next heq2 => exact absurd heq heq2
  · exact absurd rfl hk

theorem TTok_put {t : TT} (ht : TTok t) {k : Nat} {v : Int} (hk : k ≠ 0)
    (h1 : -41 ≤ v) (h2 : v ≤ -1)
    (h3 : ∀ p : Position, Inv p → p.key = k → refScore p ≤ v + 20) :
    TTok (t.put k v) := by
  intro i
  unfold TT.put
  simp only []
  by_cases hi : i = t.index k
  · rw [if_pos hi]
    exact ⟨fun h0 => absurd h0 hk, fun _ => ⟨h1, h2, h3⟩⟩
  · rw [if_neg hi]
    exact ht i

theorem toInt8_eq_self {x : Int} (h1 : -128 ≤ x) (h2 : x ≤ 127) :
    toInt8 x = x := by
  unfold toInt8
  omega

/-- The empty position's full-width score is at least -20: no child hands
the opponent an immediate win, because after one move the new mover owns no
stones at all. -/
theorem refScore_start_lower : -20 ≤ refScore start := by
  have hI : Inv start := inv_start
  have hw : winNow start = false := winNow_position_zero hI rfl
  have hstep := @refStep start 42 hw (by decide)
  have hchildI : Inv (start.make_move 3) :=
    inv_make_move hI (by decide) (by decide)
  have hchildpos : (start.make_move 3).position = 0 := rfl
  have hchildw : winNow (start.make_move 3) = false :=
    winNow_position_zero hchildI hchildpos
  have hchildm : (start.make_move 3).moves = 1 := rfl
  have hb := (negamaxRef_bounds 42 (start.make_move 3) hchildI
    (by rw [hchildm])).2.1 hchildw (by rw [hchildm]; omega)
  rw [hchildm] at hb
  have h3mem : (3 : Nat) ∈ COLUMN_ORDER.filter (fun c => start.can_play c) := by
    decide
  have hmem : -negamaxRef 42 (start.make_move 3)
      ∈ (COLUMN_ORDER.filter (fun c => start.can_play c)).map
        (fun c => -negamaxRef 42 (start.make_move c)) :=
    List.mem_map.mpr ⟨3, h3mem, rfl⟩
  have hfold := @le_foldr_max _ _ (-1000) hmem
  unfold refScore
  rw [hstep]
  have : ((7 * 6 : Int) - 1 - (1 : Nat)) / 2 = 20 := by norm_num
  omega

end RefNegamax

section LoopLemma

theorem nmLoop_nil (f : Position → Int → Int → TT → Nat → SR) (p : Position)
    (alpha beta : Int) (tt : TT) (n : Nat) :
    nmLoop f [] p alpha beta tt n = ⟨none, alpha, tt, n, []⟩ := rfl

theorem nmLoop_cons_skip {f : Position → Int → Int → TT → Nat → SR}
    {p : Position} {c : Nat} (hplay : ¬ p.can_play c = true)
    (rest : List Nat) (alpha beta : Int) (tt : TT) (n : Nat) :
    nmLoop f (c :: rest) p alpha beta tt n
      = nmLoop f rest p alpha beta tt n := by
  simp only [nmLoop]
  rw [if_neg hplay]

theorem nmLoop_cons_cut {f : Position → Int → Int → TT → Nat → SR}
    {p : Position} {c : Nat} {alpha beta : Int} {tt : TT} {n : Nat}
    (hplay : p.can_play c = true) (rest : List Nat)
    (hcut : beta ≤ -(f (p.make_move c) (-beta) (-alpha) tt n).score) :
    nmLoop f (c :: rest) p alpha beta tt n
      = ⟨some (-(f (p.make_move c) (-beta) (-alpha) tt n).score), alpha,
          (f (p.make_move c) (-beta) (-alpha) tt n).tt,
          (f (p.make_move c) (-beta) (-alpha) tt n).nodes,
          (f (p.make_move c) (-beta) (-alpha) tt n).log⟩ := by
  simp only [nmLoop]
  rw [if_pos hplay, if_pos hcut]

theorem nmLoop_cons_go {f : Position → Int → Int → TT → Nat → SR}
    {p : Position} {c : Nat} {alpha beta : Int} {tt : TT} {n : Nat}
    (hplay : p.can_play c = true) (rest : List Nat)
    (hcut : ¬ beta ≤ -(f (p.make_move c) (-beta) (-alpha) tt n).score) :
    nmLoop f (c :: rest) p alpha beta tt n
      = ⟨(nmLoop f rest p
            (max alpha (-(f (p.make_move c) (-beta) (-alpha) tt n).score)) beta
            (f (p.make_move c) (-beta) (-alpha) tt n).tt
            (f (p.make_move c) (-beta) (-alpha) tt n).nodes).cut,
          (nmLoop f rest p
            (max alpha (-(f (p.make_move c) (-beta) (-alpha) tt n).score)) beta
            (f (p.make_move c) (-beta) (-alpha) tt n).tt
            (f (p.make_move c) (-beta) (-alpha) tt n).nodes).alpha,
          (nmLoop f rest p
            (max alpha (-(f (p.make_move c) (-beta) (-alpha) tt n).score)) beta
            (f (p.make_move c) (-beta) (-alpha) tt n).tt
            (f (p.make_move c) (-beta) (-alpha) tt n).nodes).tt,
          (nmLoop f rest p
            (max alpha (-(f (p.make_move c) (-beta) (-alpha) tt n).score)) beta
            (f (p.make_move c) (-beta) (-alpha) tt n).tt
            (f (p.make_move c) (-beta) (-alpha) tt n).nodes).nodes,
          (f (p.make_move c) (-beta) (-alpha) tt n).log
            ++ (nmLoop f rest p
                  (max alpha (-(f (p.make_move c) (-beta) (-alpha) tt n).score))
                  beta (f (p.make_move c) (-beta) (-alpha) tt n).tt
                  (f (p.make_move c) (-beta) (-alpha) tt n).nodes).log⟩ := by
  simp only [nmLoop]
  rw [if_pos hplay, if_neg hcut]

/-- Correctness of the solver's move loop, given the induction hypothesis
for the child searches: on a beta cutoff the returned score is at least
`beta` and at most the negated full-width value of some legal child; on
normal completion the final alpha bounds every explored child's negated
full-width value from above and is either the initial alpha or achieved
exactly by some child. -/
theorem nmLoop_spec (fuel : Nat) (hf : NSpec fuel) (p : Position) (beta : Int)
    (hI : Inv p) (hfu : 42 ≤ p.moves + fuel) (hb21 : beta ≤ 21) :
    ∀ (cols : List Nat) (alpha : Int) (tt : TT) (n : Nat),
      (∀ c ∈ cols, c < 7) → -21 ≤ alpha → alpha < beta → 0 < tt.size →
      TTok tt →
      TTok (nmLoop (negamax fuel) cols p alpha beta tt n).tt ∧
      (nmLoop (negamax fuel) cols p alpha beta tt n).tt.size = tt.size ∧
      (∀ v ∈ (nmLoop (negamax fuel) cols p alpha beta tt n).log,
        -41 ≤ v ∧ v ≤ -1) ∧
      (∀ s, (nmLoop (negamax fuel) cols p alpha beta tt n).cut = some s →
        beta ≤ s ∧ ∃ c, c ∈ cols ∧ p.can_play c = true ∧
          s ≤ -refScore (p.make_move c)) ∧
      ((nmLoop (negamax fuel) cols p alpha beta tt n).cut = none →
        alpha ≤ (nmLoop (negamax fuel) cols p alpha beta tt n).alpha ∧
        (nmLoop (negamax fuel) cols p alpha beta tt n).alpha < beta ∧
        (∀ c ∈ cols, p.can_play c = true →
          -refScore (p.make_move c)
            ≤ (nmLoop (negamax fuel) cols p alpha beta tt n).alpha) ∧
        ((nmLoop (negamax fuel) cols p alpha beta tt n).alpha = alpha ∨
          ∃ c, c ∈ cols ∧ p.can_play c = true ∧
            -refScore (p.make_move c)
              = (nmLoop (negamax fuel) cols p alpha beta tt n).alpha)) := by
  intro cols
  induction cols with
  | nil =>
    intro alpha tt n hcs ha hab hsz htt
    rw [nmLoop_nil]
    refine ⟨htt, rfl, by simp, ?_, ?_⟩
    · intro s hs
      exact absurd hs (by simp)
    · intro _
      exact ⟨le_refl _, hab, by simp, Or.inl rfl⟩
  | cons c rest ih =>
    intro alpha tt n hcs ha hab hsz htt
    have hc7 : c < 7 := hcs c (by simp)
    by_cases hplay : p.can_play c = true
    · have hchildI : Inv (p.make_move c) := inv_make_move hI hc7 hplay
      have hchildm : (p.make_move c).moves = p.moves + 1 := rfl
      have hspec := hf (p.make_move c) (-beta) (-alpha) tt n hchildI
        (by rw [hchildm]; omega) (by omega) (by omega) (by omega) hsz htt
      obtain ⟨httC, hszC, hlogC, h4C, h5C, h6C⟩ := hspec
      by_cases hcut : beta
          ≤ -(negamax fuel (p.make_move c) (-beta) (-alpha) tt n).score
      · rw [nmLoop_cons_cut hplay rest hcut]
        refine ⟨httC, hszC, hlogC, ?_, ?_⟩
        · intro s hs
          have hss : -(negamax fuel (p.make_move c) (-beta) (-alpha) tt n).score
              = s := by
            simpa using hs
          refine ⟨by omega, c, by simp, hplay, ?_⟩
          have hfailhigh := h4C (by omega)
          omega
        · intro hnone
          simp at hnone
      · rw [nmLoop_cons_go hplay rest hcut]
        dsimp only
        have hrec := ih
          (max alpha (-(negamax fuel (p.make_move c) (-beta) (-alpha) tt n).score))
          (negamax fuel (p.make_move c) (-beta) (-alpha) tt n).tt
          (negamax fuel (p.make_move c) (-beta) (-alpha) tt n).nodes
          (fun x hx => hcs x (by simp [hx]))
          (by omega) (by omega) (by omega) httC
        obtain ⟨htt2, hsz2, hlog2, h42, h52⟩ := hrec
        refine ⟨htt2, hsz2.trans hszC, ?_, ?_, ?_⟩
        · intro v hv
          rcases List.mem_append.mp hv with h | h
          · exact hlogC v h
          · exact hlog2 v h
        · intro s hs
          obtain ⟨hbs, c2, hc2mem, hc2play, hc2le⟩ := h42 s hs
          exact ⟨hbs, c2, by simp [hc2mem], hc2play, hc2le⟩
        · intro hnone
          obtain ⟨hle2, hlt2, hcol2, him2⟩ := h52 hnone
          have halpha : alpha
              ≤ max alpha
                  (-(negamax fuel (p.make_move c) (-beta) (-alpha) tt n).score) :=
            le_max_left ..
          refine ⟨by omega, hlt2, ?_, ?_⟩
          · intro c2 hc2 hplay2
            rcases List.mem_cons.mp hc2 with rfl | hmem2
            · -- the column just explored
              rcases le_or_lt
                  (-(negamax fuel (p.make_move c2) (-beta) (-alpha) tt n).score)
                  alpha with hsa | hsa
              · have hfaillow := h5C (by omega)
                omega
              · have hexact := h6C (by omega) (by omega)
                have hsc :
                    -(negamax fuel (p.make_move c2) (-beta) (-alpha) tt n).score
                      = -refScore (p.make_move c2) := by
                  rw [hexact]
                omega
            · exact hcol2 c2 hmem2 hplay2
          · rcases him2 with heqa | ⟨c2, hc2mem, hc2play, hc2eq⟩
            · -- the rest of the loop never improved on max alpha s
              rcases le_or_lt
                  (-(negamax fuel (p.make_move c) (-beta) (-alpha) tt n).score)
                  alpha with hsa | hsa
              · left
                rw [heqa]
                omega
              · right
                refine ⟨c, by simp, hplay, ?_⟩
                have hexact := h6C (by omega) (by omega)
                have hsc :
                    -(negamax fuel (p.make_move c) (-beta) (-alpha) tt n).score
                      = -refScore (p.make_move c) := by
                  rw [hexact]
                rw [heqa]
                omega
            · right
              exact ⟨c2, by simp [hc2mem], hc2play, hc2eq⟩
    · rw [nmLoop_cons_skip hplay rest alpha beta tt n]
      have hrec := ih alpha tt n (fun x hx => hcs x (by simp [hx])) ha hab hsz htt
      obtain ⟨htt2, hsz2, hlog2, h42, h52⟩ := hrec
      refine ⟨htt2, hsz2, hlog2, ?_, ?_⟩
      · intro s hs
        obtain ⟨hbs, c2, hc2mem, hc2play, hc2le⟩ := h42 s hs
        exact ⟨hbs, c2, by simp [hc2mem], hc2play, hc2le⟩
      · intro hnone
        obtain ⟨hle2, hlt2, hcol2, him2⟩ := h52 hnone
        refine ⟨hle2, hlt2, ?_, ?_⟩
        · intro c2 hc2 hplay2
          rcases List.mem_cons.mp hc2 with rfl | hmem2
          · exact absurd hplay2 hplay
          · exact hcol2 c2 hmem2 hplay2
        · rcases him2 with heqa | ⟨c2, hc2mem, hc2play, hc2eq⟩
          · exact Or.inl heqa
          · exact Or.inr ⟨c2, by simp [hc2mem], hc2play, hc2eq⟩

end LoopLemma

section MasterTheorem

theorem refScore_fold {p : Position} (hI : Inv p) (hw : winNow p = false)
    (h40 : p.moves ≤ 40) :
    refScore p = ((COLUMN_ORDER.filter fun c => p.can_play c).map
      fun c => -refScore (p.make_move c)).foldr max (-1000) := by
  unfold refScore
  rw [@refStep p 42 hw h40]
  have hmap : (List.filter (fun c => p.can_play c) COLUMN_ORDER).map
      (fun c => -negamaxRef 42 (p.make_move c))
    = (List.filter (fun c => p.can_play c) COLUMN_ORDER).map
      (fun c => -negamaxRef 43 (p.make_move c)) := by
    apply List.map_congr_left
    intro c hc
    rw [List.mem_filter] at hc
    have hcI := inv_make_move hI (column_order_lt hc.1) hc.2
    have hcm : (p.make_move c).moves = p.moves + 1 := rfl
    rw [negamaxRef_congr 42 43 (p.make_move c) hcI (by omega) (by omega)]
  rw [hmap]

theorem refScore_le_of_all {p : Position} (hI : Inv p) (hw : winNow p = false)
    (h40 : p.moves ≤ 40) {B : Int} (hB : -1000 ≤ B)
    (hall : ∀ c, c ∈ COLUMN_ORDER → p.can_play c = true →
      -refScore (p.make_move c) ≤ B) :
    refScore p ≤ B := by
  rw [refScore_fold hI hw h40]
  apply foldr_max_le
  · intro x hx
    rcases List.mem_map.mp hx with ⟨c, hc, rfl⟩
    rw [List.mem_filter] at hc
    exact hall c hc.1 hc.2
  · exact hB

theorem le_refScore_of_mem {p : Position} (hI : Inv p) (hw : winNow p = false)
    (h40 : p.moves ≤ 40) {c : Nat} (hcm : c ∈ COLUMN_ORDER)
    (hcp : p.can_play c = true) :
    -refScore (p.make_move c) ≤ refScore p := by
  rw [refScore_fold hI hw h40]
  exact le_foldr_max
    (List.mem_map.mpr ⟨c, List.mem_filter.mpr ⟨hcm, hcp⟩, rfl⟩)

theorem negamax_cache_prune {p : Position} {fuel : Nat} {a b : Int} {tt : TT}
    {n : Nat} (hw : winNow p = false) (h40 : p.moves ≤ 40)
    (hcond : tt.get p.key ≠ 0 ∧ tt.get p.key + 7 * 6 / 2 - 1 < b ∧
      tt.get p.key + 7 * 6 / 2 - 1 ≤ a) :
    negamax (fuel + 1) p a b tt n
      = ⟨tt.get p.key + 7 * 6 / 2 - 1, tt, n + 1, []⟩ := by
  simp only [negamax, hw, Bool.false_eq_true, if_false]
  split
  · next hcon => exact absurd hcon (by omega)
  · rfl

theorem negamax_clamp_prune {p : Position} {fuel : Nat} {a b : Int} {tt : TT}
    {n : Nat} (hw : winNow p = false) (h40 : p.moves ≤ 40)
    (hc1 : ¬(tt.get p.key ≠ 0 ∧ tt.get p.key + 7 * 6 / 2 - 1 < b ∧
      tt.get p.key + 7 * 6 / 2 - 1 ≤ a))
    (hc2 : ((7 * 6 : Int) - 1 - (p.moves : Int)) / 2
        < (if tt.get p.key ≠ 0 ∧ tt.get p.key + 7 * 6 / 2 - 1 < b then
            tt.get p.key + 7 * 6 / 2 - 1 else b) ∧
      ((7 * 6 : Int) - 1 - (p.moves : Int)) / 2 ≤ a) :
    negamax (fuel + 1) p a b tt n
      = ⟨((7 * 6 : Int) - 1 - (p.moves : Int)) / 2, tt, n + 1, []⟩ := by
  simp only [negamax, hw, Bool.false_eq_true, if_false]
  split
  · next hcon => exact absurd hcon (by omega)
  · rfl

theorem negamax_loop_eq {p : Position} {fuel : Nat} {a b : Int} {tt : TT}
    {n : Nat} (hw : winNow p = false) (h40 : p.moves ≤ 40)
    (hc1 : ¬(tt.get p.key ≠ 0 ∧ tt.get p.key + 7 * 6 / 2 - 1 < b ∧
      tt.get p.key + 7 * 6 / 2 - 1 ≤ a))
    (hc2 : ¬(((7 * 6 : Int) - 1 - (p.moves : Int)) / 2
        < (if tt.get p.key ≠ 0 ∧ tt.get p.key + 7 * 6 / 2 - 1 < b then
            tt.get p.key + 7 * 6 / 2 - 1 else b) ∧
      ((7 * 6 : Int) - 1 - (p.moves : Int)) / 2 ≤ a)) :
    negamax (fuel + 1) p a b tt n
      = (match (nmLoop (negamax fuel) COLUMN_ORDER p a
            (if ((7 * 6 : Int) - 1 - (p.moves : Int)) / 2
                < (if tt.get p.key ≠ 0 ∧ tt.get p.key + 7 * 6 / 2 - 1 < b then
                    tt.get p.key + 7 * 6 / 2 - 1 else b) then
              ((7 * 6 : Int) - 1 - (p.moves : Int)) / 2
            else (if tt.get p.key ≠ 0 ∧ tt.get p.key + 7 * 6 / 2 - 1 < b then
                    tt.get p.key + 7 * 6 / 2 - 1 else b))
            tt (n + 1)).cut with
        | some s =>
          ⟨s, (nmLoop (negamax fuel) COLUMN_ORDER p a
                (if ((7 * 6 : Int) - 1 - (p.moves : Int)) / 2
                    < (if tt.get p.key ≠ 0 ∧ tt.get p.key + 7 * 6 / 2 - 1 < b then
                        tt.get p.key + 7 * 6 / 2 - 1 else b) then
                  ((7 * 6 : Int) - 1 - (p.moves : Int)) / 2
                else (if tt.get p.key ≠ 0 ∧ tt.get p.key + 7 * 6 / 2 - 1 < b then
                        tt.get p.key + 7 * 6 / 2 - 1 else b))
                tt (n + 1)).tt,
            (nmLoop (negamax fuel) COLUMN_ORDER p a
                (if ((7 * 6 : Int) - 1 - (p.moves : Int)) / 2
                    < (if tt.get p.key ≠ 0 ∧ tt.get p.key + 7 * 6 / 2 - 1 < b then
                        tt.get p.key + 7 * 6 / 2 - 1 else b) then
                  ((7 * 6 : Int) - 1 - (p.moves : Int)) / 2
                else (if tt.get p.key ≠ 0 ∧ tt.get p.key + 7 * 6 / 2 - 1 < b then
                        tt.get p.key + 7 * 6 / 2 - 1 else b))
                tt (n + 1)).nodes,
            (nmLoop (negamax fuel) COLUMN_ORDER p a
                (if ((7 * 6 : Int) - 1 - (p.moves : Int)) / 2
                    < (if tt.get p.key ≠ 0 ∧ tt.get p.key + 7 * 6 / 2 - 1 < b then
                        tt.get p.key + 7 * 6 / 2 - 1 else b) then
                  ((7 * 6 : Int) - 1 - (p.moves : Int)) / 2
                else (if tt.get p.key ≠ 0 ∧ tt.get p.key + 7 * 6 / 2 - 1 < b then
                        tt.get p.key + 7 * 6 / 2 - 1 else b))
                tt (n + 1)).log⟩
        | none =>
          ⟨(nmLoop (negamax fuel) COLUMN_ORDER p a
                (if ((7 * 6 : Int) - 1 - (p.moves : Int)) / 2
                    < (if tt.get p.key ≠ 0 ∧ tt.get p.key + 7 * 6 / 2 - 1 < b then
                        tt.get p.key + 7 * 6 / 2 - 1 else b) then
                  ((7 * 6 : Int) - 1 - (p.moves : Int)) / 2
                else (if tt.get p.key ≠ 0 ∧ tt.get p.key + 7 * 6 / 2 - 1 < b then
                        tt.get p.key + 7 * 6 / 2 - 1 else b))
                tt (n + 1)).alpha,
            (nmLoop (negamax fuel) COLUMN_ORDER p a
                (if ((7 * 6 : Int) - 1 - (p.moves : Int)) / 2
                    < (if tt.get p.key ≠ 0 ∧ tt.get p.key + 7 * 6 / 2 - 1 < b then
                        tt.get p.key + 7 * 6 / 2 - 1 else b) then
                  ((7 * 6 : Int) - 1 - (p.moves : Int)) / 2
                else (if tt.get p.key ≠ 0 ∧ tt.get p.key + 7 * 6 / 2 - 1 < b then
                        tt.get p.key + 7 * 6 / 2 - 1 else b))
                tt (n + 1)).tt.put p.key
              (toInt8 ((nmLoop (negamax fuel) COLUMN_ORDER p a
                (if ((7 * 6 : Int) - 1 - (p.moves : Int)) / 2
                    < (if tt.get p.key ≠ 0 ∧ tt.get p.key + 7 * 6 / 2 - 1 < b then
                        tt.get p.key + 7 * 6 / 2 - 1 else b) then
                  ((7 * 6 : Int) - 1 - (p.moves : Int)) / 2
                else (if tt.get p.key ≠ 0 ∧ tt.get p.key + 7 * 6 / 2 - 1 < b then
                        tt.get p.key + 7 * 6 / 2 - 1 else b))
                tt (n + 1)).alpha - 7 * 6 / 2 + 1)),
            (nmLoop (negamax fuel) COLUMN_ORDER p a
                (if ((7 * 6 : Int) - 1 - (p.moves : Int)) / 2
                    < (if tt.get p.key ≠ 0 ∧ tt.get p.key + 7 * 6 / 2 - 1 < b then
                        tt.get p.key + 7 * 6 / 2 - 1 else b) then
                  ((7 * 6 : Int) - 1 - (p.moves : Int)) / 2
                else (if tt.get p.key ≠ 0 ∧ tt.get p.key + 7 * 6 / 2 - 1 < b then
                        tt.get p.key + 7 * 6 / 2 - 1 else b))
                tt (n + 1)).nodes,
            (nmLoop (negamax fuel) COLUMN_ORDER p a
                (if ((7 * 6 : Int) - 1 - (p.moves : Int)) / 2
                    < (if tt.get p.key ≠ 0 ∧ tt.get p.key + 7 * 6 / 2 - 1 < b then
                        tt.get p.key + 7 * 6 / 2 - 1 else b) then
                  ((7 * 6 : Int) - 1 - (p.moves : Int)) / 2
                else (if tt.get p.key ≠ 0 ∧ tt.get p.key + 7 * 6 / 2 - 1 < b then
                        tt.get p.key + 7 * 6 / 2 - 1 else b))
                tt (n + 1)).log
              ++ [(nmLoop (negamax fuel) COLUMN_ORDER p a
                (if ((7 * 6 : Int) - 1 - (p.moves : Int)) / 2
                    < (if tt.get p.key ≠ 0 ∧ tt.get p.key + 7 * 6 / 2 - 1 < b then
                        tt.get p.key + 7 * 6 / 2 - 1 else b) then
                  ((7 * 6 : Int) - 1 - (p.moves : Int)) / 2
                else (if tt.get p.key ≠ 0 ∧ tt.get p.key + 7 * 6 / 2 - 1 < b then
                        tt.get p.key + 7 * 6 / 2 - 1 else b))
                tt (n + 1)).alpha - 7 * 6 / 2 + 1]⟩) := by
  simp only [negamax, hw, Bool.false_eq_true, if_false]
  split
  · next hcon => exact absurd hcon (by omega)
  · rfl

/-- Master induction: every fuel level satisfies the fail-soft negamax
specification `NSpec` — table soundness is preserved, logged store values
stay in `[-41, -1]`, and the returned score bounds (or equals, inside the
window) the full-width negamax score. -/
theorem negamax_spec : ∀ fuel : Nat, NSpec fuel := by
  intro fuel
  induction fuel with
  | zero =>
    intro q a b t m hI hfu ha hab hb21 hsz htt
    exact absurd (moves_le_42 hI) (by omega)
  | succ fl ih =>
    intro q a b t m hI hfu ha hab hb21 hsz htt
    have hm42 := moves_le_42 hI
    cases hw : winNow q with
    | true =>
      rw [negamax_win_eq hw a b t m]
      have hre : refScore q = winScore q := refWin hw
      refine ⟨htt, rfl, by simp, ?_, ?_, ?_⟩
      · intro _
        exact le_of_eq hre
      · intro _
        exact le_of_eq hre.symm
      · intro _ _
        exact hre.symm
    | false =>
      rcases Nat.lt_or_ge q.moves 41 with h40 | h41
      case inr =>
        rw [negamax_draw_eq hw h41 a b t m]
        have hre : refScore q = 0 := refDraw hw h41
        refine ⟨htt, rfl, by simp, ?_, ?_, ?_⟩ <;> dsimp only
        · intro _
          exact hre.le
        · intro _
          exact hre.ge
        · intro _ _
          exact hre.symm
      case inl =>
      have h40 : q.moves ≤ 40 := by omega
      by_cases hc1 : t.get q.key ≠ 0 ∧ t.get q.key + 7 * 6 / 2 - 1 < b ∧
          t.get q.key + 7 * 6 / 2 - 1 ≤ a
      · rw [negamax_cache_prune hw h40 hc1]
        obtain ⟨hg1, hg2, hg3⟩ := TTok_get htt hc1.1
        refine ⟨htt, rfl, by simp, ?_, ?_, ?_⟩ <;> dsimp only
        · intro _
          have := hg3 q hI rfl
          omega
        · intro hb
          exact absurd hb (by omega)
        · intro h1 h2
          exact absurd h1 (by omega)
      · by_cases hc2 : ((7 * 6 : Int) - 1 - (q.moves : Int)) / 2
            < (if t.get q.key ≠ 0 ∧ t.get q.key + 7 * 6 / 2 - 1 < b then
                t.get q.key + 7 * 6 / 2 - 1 else b) ∧
          ((7 * 6 : Int) - 1 - (q.moves : Int)) / 2 ≤ a
        · rw [negamax_clamp_prune hw h40 hc1 hc2]
          have hub := (negamaxRef_bounds 43 q hI (by omega)).2.1 hw h40
          have hbb : (if t.get q.key ≠ 0 ∧ t.get q.key + 7 * 6 / 2 - 1 < b then
              t.get q.key + 7 * 6 / 2 - 1 else b) ≤ b := by
            split
            · next hcc => exact le_of_lt hcc.2
            · exact le_refl b
          refine ⟨htt, rfl, by simp, ?_, ?_, ?_⟩ <;> dsimp only
          · intro _
            exact hub
          · intro hb2
            exact absurd hb2 (by omega)
          · intro h1 h2
            exact absurd h1 (by omega)
        · rw [negamax_loop_eq hw h40 hc1 hc2]
          set mp : Int := ((7 * 6 : Int) - 1 - (q.moves : Int)) / 2 with hmp
          set b1 : Int := (if t.get q.key ≠ 0 ∧ t.get q.key + 7 * 6 / 2 - 1 < b
              then t.get q.key + 7 * 6 / 2 - 1 else b) with hb1
          set b2 : Int := (if mp < b1 then mp else b1) with hb2
          have hb1b : b1 ≤ b := by
            rw [hb1]
            split
            · next hcc => exact le_of_lt hcc.2
            · exact le_refl b
          have hb2b1 : b2 ≤ b1 := by
            rw [hb2]
            split
            · next hcc => exact le_of_lt hcc
            · exact le_refl b1
          have hb2mp : b2 ≤ mp := by
            rw [hb2]
            split
            · exact le_refl mp
            · next hcc => omega
          have hmp20 : mp ≤ 20 := by
            rw [hmp]
            omega
          have hmp0 : 0 ≤ mp := by
            rw [hmp]
            omega
          have ha2 : a < b2 := by
            rw [hb2]
            split
            · next hcc =>
              by_contra hcon
              exact hc2 ⟨by rw [hb1] at hcc ⊢; exact hcc, by omega⟩
            · rw [hb1]
              split
              · next hcc =>
                by_contra hcon
                exact hc1 ⟨hcc.1, hcc.2, by omega⟩
              · exact hab
          have hub : refScore q ≤ b2 ∨ b2 = b := by
            have hrefmp : refScore q ≤ mp := by
              have := (negamaxRef_bounds 43 q hI (by omega)).2.1 hw h40
              rw [hmp]
              exact this
            rw [hb2]
            split
            · exact Or.inl hrefmp
            · rw [hb1]
              split
              · next hcc =>
                obtain ⟨hg1, hg2, hg3⟩ := TTok_get htt hcc.1
                have := hg3 q hI rfl
                exact Or.inl (by omega)
              · exact Or.inr rfl
          obtain ⟨hT, hS, hLg, hCut, hNone⟩ :=
            nmLoop_spec fl ih q b2 hI (by omega) (by omega) COLUMN_ORDER a t
              (m + 1) (fun c hc => column_order_lt hc) ha ha2 hsz htt
          cases hcut : (nmLoop (negamax fl) COLUMN_ORDER q a b2 t (m + 1)).cut with
          | some s =>
            rw [hcut] at hCut
            obtain ⟨hbs, c, hcmem, hcplay, hsle⟩ := hCut s rfl
            have hchild : -refScore (q.make_move c) ≤ refScore q :=
              le_refScore_of_mem hI hw h40 hcmem hcplay
            refine ⟨hT, hS, hLg, ?_, ?_, ?_⟩ <;> dsimp only
            · intro hcon
              exact absurd hcon (by omega)
            · intro _
              exact le_trans hsle hchild
            · intro h1 h2
              rcases hub with hubl | hubr
              · exact le_antisymm (le_trans hsle hchild) (le_trans hubl hbs)
              · exact absurd h2 (by omega)
          | none =>
            rw [hcut] at hNone
            obtain ⟨haL, hLb2, hcolbnd, himp⟩ := hNone rfl
            have hrefle : refScore q ≤
                (nmLoop (negamax fl) COLUMN_ORDER q a b2 t (m + 1)).alpha :=
              refScore_le_of_all hI hw h40 (by omega) hcolbnd
            have ht8 : toInt8
                ((nmLoop (negamax fl) COLUMN_ORDER q a b2 t (m + 1)).alpha
                  - 7 * 6 / 2 + 1)
              = (nmLoop (negamax fl) COLUMN_ORDER q a b2 t (m + 1)).alpha
                  - 7 * 6 / 2 + 1 :=
              toInt8_eq_self (by omega) (by omega)
            refine ⟨?_, ?_, ?_, ?_, ?_, ?_⟩ <;> dsimp only
            · rw [ht8]
              refine TTok_put hT (key_ne_zero q) (by omega) (by omega) ?_
              intro p' hp' hkey
              have heq := key_inj hp' hI hkey
              rw [heq]
              omega
            · exact hS
            · intro v hv
              rcases List.mem_append.mp hv with hv1 | hv2
              · exact hLg v hv1
              · rw [List.mem_singleton] at hv2
                omega
            · intro _
              exact hrefle
            · intro hcon
              exact absurd hcon (by omega)
            · intro h1 h2
              rcases himp with heq | ⟨c, hcm, hcp, hceq⟩
              · exact absurd h1 (by omega)
              · exact le_antisymm
                  (hceq ▸ le_refScore_of_mem hI hw h40 hcm hcp) hrefle

end MasterTheorem

section ClaimC1C8

/-- Claim C1: for every reachable position, the score returned by
`Solver::solve` — negamax with alpha-beta pruning, the cached-bound and
depth-bound beta clamps, and the transposition table — equals the score of
the full-width, unpruned negamax evaluation (`refScore`) of the same
position, for any sound transposition table with positive capacity. -/
theorem C1_solve_full_width {p : Position} {tt : TT} (hR : Reachable p)
    (hsz : 0 < tt.size) (htt : TTok tt) :
    (solve p tt).score = refScore p := by
  have hI : Inv p := hR.inv
  have hm := moves_le_42 hI
  have hbd := negamaxRef_bounds 43 p hI (by omega)
  have hlo := hbd.2.2
  have hhi := hbd.1
  have hrs : refScore p = negamaxRef 43 p := rfl
  obtain ⟨_, _, _, h4, h5, h6⟩ :=
    negamax_spec 43 p (-(7 * 6 : Int) / 2) ((7 * 6 + 1 : Int) / 2) tt 0 hI
      (by omega) (by decide) (by decide) (by decide) hsz htt
  show (negamax 43 p (-(7 * 6 : Int) / 2) ((7 * 6 + 1 : Int) / 2) tt 0).score
      = refScore p
  by_cases hl : (negamax 43 p (-(7 * 6 : Int) / 2) ((7 * 6 + 1 : Int) / 2)
      tt 0).score ≤ -(7 * 6 : Int) / 2
  · have := h4 hl
    omega
  · by_cases hh : (7 * 6 + 1 : Int) / 2
        ≤ (negamax 43 p (-(7 * 6 : Int) / 2) ((7 * 6 + 1 : Int) / 2)
            tt 0).score
    · have := h5 hh
      omega
    · exact h6 (by omega) (by omega)

theorem C1_solve_full_width_witness :
    0 < (TT.init 1).size ∧
    (solve start (TT.init 1)).score = refScore start :=
  ⟨by decide, C1_solve_full_width Reachable.init (by decide) (TTok_init 1)⟩

/-- Claim C8: every value the search stores into the transposition table —
recorded pre-cast in the ghost `log` field — has the form
`alpha - WIDTH*HEIGHT/2 + 1` for the loop's final `alpha`, is nonzero, fits
in a signed byte so the `int8_t` cast does not wrap, and the lookup
arithmetic `cached + WIDTH*HEIGHT/2 - 1` recovers exactly that `alpha`. -/
theorem C8_store_arithmetic {p : Position} {tt : TT} {a b : Int}
    {fuel n : Nat} (hR : Reachable p) (hfu : 43 ≤ p.moves + fuel)
    (ha : -21 ≤ a) (hab : a < b) (hb : b ≤ 21) (hsz : 0 < tt.size)
    (htt : TTok tt) :
    ∀ v ∈ (negamax fuel p a b tt n).log,
      ∃ al : Int, v = al - 7 * 6 / 2 + 1 ∧
        v ≠ 0 ∧ -128 ≤ v ∧ v ≤ 127 ∧ toInt8 v = v ∧
        toInt8 v + 7 * 6 / 2 - 1 = al := by
  have hI : Inv p := hR.inv
  obtain ⟨_, _, h3, _, _, _⟩ :=
    negamax_spec fuel p a b tt n hI hfu ha hab hb hsz htt
  intro v hv
  obtain ⟨hv1, hv2⟩ := h3 v hv
  have h8 : toInt8 v = v := toInt8_eq_self (by omega) (by omega)
  exact ⟨v + 20, by omega, by omega, by omega, by omega, h8, by omega⟩

theorem C8_store_arithmetic_witness :
    (negamax 3 (c8seq.foldl Position.make_move start) (-1) 1
        (TT.init 1) 0).log = [-21] ∧
    ∀ v ∈ (negamax 3 (c8seq.foldl Position.make_move start) (-1) 1
        (TT.init 1) 0).log,
      ∃ al : Int, v = al - 7 * 6 / 2 + 1 ∧
        v ≠ 0 ∧ -128 ≤ v ∧ v ≤ 127 ∧ toInt8 v = v ∧
        toInt8 v + 7 * 6 / 2 - 1 = al :=
  ⟨by decide, C8_store_arithmetic
    (reachable_foldl c8seq Reachable.init (by decide))
    (by decide) (by decide) (by decide) (by decide) (by decide)
    (TTok_init 1)⟩

end ClaimC1C8

end Marlin
